import Mathlib

/-!
# MCAWorker: the chunked fetch-convert-submit loop and the instruction recycling pool

A shallow embedding of `src/MCAWorker.cpp` (with the `Broker` interface of
`src/Brokers/Broker.h`) and the properties proved about it.

* Part 1 embeds the two recycling callbacks of the `MCAWorker` constructor,
  `GetRecycledInst` and `AddRecycledInst`, over the `RecycledInsts` map.
* Part 2 embeds `MCAWorker::run` and `MCAWorker::runPipeline`.  The external
  collaborators (Broker, instruction builder, pipeline, instruction printer)
  are oracles; every call the worker makes on them is logged as an `Event`.
-/

namespace mcad

/-! ## Part 1: the recycling pool -/

/-- Address of an `mca::Instruction` (a non-null `mca::Instruction*`). -/
abbrev InstPtr := Nat

/-- Address of an `mca::InstrDesc` (the `&Desc` used as the map key). -/
abbrev DescPtr := Nat

/-- Modelled from the spec: the member `RecycledInsts`, whose declaration is in
MCAWorker.h (not among the sources); the spec calls it a "mapping from
Descriptor identity to a set of free AnalyzableInstruction instances".  The map
is an association list (first entry of a key wins), each set is a list kept
strictly increasing, so that `*Insts.begin()` is the head of the list. -/
abbrev RecycledMap := List (DescPtr × List InstPtr)

/-- Lookup `RecycledInsts.find(&Desc)`: the set stored under a key, if the key is present. -/
def mapFind : RecycledMap → DescPtr → Option (List InstPtr)
  | [], _ => none
  | (k, v) :: rest, D => if k = D then some v else mapFind rest D

/-- The test `RecycledInsts.count(&Desc)`. -/
def mapCount (m : RecycledMap) (D : DescPtr) : Nat :=
  match mapFind m D with
  | none => 0
  | some _ => 1

/-- Store through the reference `RecycledInsts[&Desc]`: overwrite the set of an
existing key, or create the entry. -/
def mapStore : RecycledMap → DescPtr → List InstPtr → RecycledMap
  | [], D, v => [(D, v)]
  | (k, w) :: rest, D, v => if k = D then (k, v) :: rest else (k, w) :: mapStore rest D v

/-- Set insertion `Insts.insert(I)`: no effect when `I` is already a member. -/
def setInsert (I : InstPtr) : List InstPtr → List InstPtr
  | [] => [I]
  | x :: xs =>
    if I < x then I :: x :: xs
    else if I = x then x :: xs
    else x :: setInsert I xs

/-- The instances pooled under descriptor `D` (empty when the key is absent). -/
def pooled (m : RecycledMap) (D : DescPtr) : List InstPtr :=
  (mapFind m D).getD []

/-- The callback `GetRecycledInst` (MCAWorker.cpp lines 75-85): the returned
pointer (`none` for `nullptr`) and the map afterwards. -/
def GetRecycledInst (m : RecycledMap) (Desc : DescPtr) : Option InstPtr × RecycledMap :=
  if mapCount m Desc ≠ 0 then
    match pooled m Desc with
    | I :: Insts => (some I, mapStore m Desc Insts)
    | [] => (none, m)
  else (none, m)

/-- The callback `AddRecycledInst` (MCAWorker.cpp lines 86-89); `getDesc` is
`I->getDesc()`, the descriptor an instruction was built for. -/
def AddRecycledInst (getDesc : InstPtr → DescPtr) (m : RecycledMap) (I : InstPtr) : RecycledMap :=
  let D := getDesc I
  mapStore m D (setInsert I (pooled m D))

/-- One call on the pool. -/
inductive PoolOp where
  | add (I : InstPtr)
  | get (D : DescPtr)
  deriving DecidableEq, Repr

/-- The map after a sequence of pool calls. -/
def poolAfter (getDesc : InstPtr → DescPtr) : RecycledMap → List PoolOp → RecycledMap
  | m, [] => m
  | m, PoolOp.add I :: ops => poolAfter getDesc (AddRecycledInst getDesc m I) ops
  | m, PoolOp.get D :: ops => poolAfter getDesc (GetRecycledInst m D).2 ops

/-- What holds of every map reached from the empty one: after the calls `hist`,
each pooled instance sits under its own descriptor, was added by an earlier
call, and each set is strictly increasing. -/
def PoolInv (getDesc : InstPtr → DescPtr) (hist : List PoolOp) (m : RecycledMap) : Prop :=
  ∀ D, (pooled m D).Sorted (· < ·) ∧
    ∀ I ∈ pooled m D, getDesc I = D ∧ PoolOp.add I ∈ hist

/-! ## Part 2: `MCAWorker::run` -/

/-- An `MCInst` owned by the Broker: its address and its opcode. -/
structure MCInst where
  addr : Nat
  opcode : Nat
  deriving DecidableEq, Repr

/-- A `const MCInst*`; `none` is `nullptr`. -/
abbrev MCInstPtr := Option MCInst

/-- The two flags of `MCInstrDesc` that `run` reads. -/
structure MCInstrDesc where
  isReturn : Bool
  isCall : Bool
  deriving DecidableEq, Repr

/-- Payload of an `llvm::Error`. -/
abbrev Err := String

/-- What `MCAIB.createInstruction(MCI)` gives back: a new instruction, an error
holding a `RecycledInstErr` (with `RC.getInst()`), or any other error. -/
inductive BuildResult where
  | built (I : InstPtr)
  | recycled (I : Option InstPtr)
  | failed (e : Err)
  deriving DecidableEq, Repr

/-- What `MCAPipeline->run()` gives back: a cycle count, an error holding an
`InstStreamPause`, or any other error. -/
inductive PipelineResult where
  | cycles (n : Nat)
  | pause
  | fatal (e : Err)
  deriving DecidableEq, Repr

/-- One call of `Broker::fetch`: the value returned and the pointers the Broker
wrote into the buffer, from index 0. -/
structure FetchResult where
  ret : Int
  written : List MCInstPtr
  deriving DecidableEq, Repr

/-- A call the worker makes on a collaborator. -/
inductive Event where
  | fetch (size : Nat) (ret : Int)
  | endOfStream
  | createInstruction (MCI : MCInst) (r : BuildResult)
  | addInst (MCI : MCInst) (I : InstPtr)
  | addRecycledInst (MCI : MCInst) (I : InstPtr)
  | pipelineRun (r : PipelineResult)
  deriving DecidableEq, Repr

/-- The collaborators of the worker, as oracles: `MCII.get(opcode)`, the n-th
call of `MCAIB.createInstruction` (n counted from 0, over the life of the
builder), the n-th call of `MCAPipeline->run()`, the text `MIP.printInst`
emits, and whether opening the trace file set the error code `EC`. -/
structure Collaborators where
  MCII : Nat → MCInstrDesc
  createInstruction : Nat → MCInst → BuildResult
  pipelineRun : Nat → PipelineResult
  printInst : MCInst → String
  EC : Bool

/-- The command-line options `run` reads. -/
structure Options where
  TraceMCI : Bool
  PreserveCallInst : Bool
  MaxNumProcessedInst : Nat
  deriving DecidableEq, Repr

/-- The state `run` works on: the local chunk buffer, the member `TraceMIs`, the
calls made so far, the lines the current run wrote to the trace stream, how many
calls the builder and the pipeline have served, and whether the current run
called `TraceTOF->keep()`. -/
structure State where
  TraceBuffer : List MCInstPtr
  TraceMIs : List MCInstPtr
  events : List Event
  traceOut : List String
  numCreate : Nat
  numRun : Nat
  kept : Bool
  deriving DecidableEq, Repr

/-- How `run` ends: `ErrorSuccess`, an error, or undefined behaviour (a null
`MCInst` pointer is dereferenced, or `InstOrErr.get()` is read while it holds
an error). -/
inductive RunResult where
  | success
  | failure (e : Err)
  | undefined
  deriving DecidableEq, Repr

/-- The Broker writes `w` into the buffer from index 0; the buffer keeps its size. -/
def brokerWrite (w buf : List MCInstPtr) : List MCInstPtr :=
  (w ++ buf.drop w.length).take buf.length

/-- The call `ArrayRef::take_front(N)`: the whole array when `N` is not smaller
than its size, its first `N` elements otherwise. -/
def take_front (A : List MCInstPtr) (N : Nat) : List MCInstPtr :=
  if N ≥ A.length then A else A.take N

/-- The call `MCAWorker::runPipeline` (lines 190-207): `none` is `ErrorSuccess`. -/
def runPipeline (C : Collaborators) (s : State) : State × Option Err :=
  let Cycles := C.pipelineRun s.numRun
  let s1 := { s with events := s.events ++ [Event.pipelineRun Cycles], numRun := s.numRun + 1 }
  match Cycles with
  | PipelineResult.cycles _ => (s1, none)
  | PipelineResult.pause => (s1, none)
  | PipelineResult.fatal e => (s1, some e)

/-- The `for` loop of `run` (lines 145-177) over `TraceBufferSlice`; `TraceOS`
says whether the trace stream is open.  `none` means the loop ran to its end,
`some r` that `run` ended inside it. -/
def convertLoop (C : Collaborators) (O : Options) (TraceOS : Bool) :
    List MCInstPtr → State → State × Option RunResult
  | [], s => (s, none)
  | OrigMCI :: rest, s =>
    let s1 := { s with TraceMIs := s.TraceMIs ++ [OrigMCI] }
    match OrigMCI with
    | none => (s1, some RunResult.undefined)
    | some MCI =>
      let MCID := C.MCII MCI.opcode
      if MCID.isReturn then convertLoop C O TraceOS rest s1
      else if !O.PreserveCallInst && MCID.isCall then convertLoop C O TraceOS rest s1
      else
        let s2 := if TraceOS then { s1 with traceOut := s1.traceOut ++ [C.printInst MCI ++ "\n"] }
                  else s1
        let InstOrErr := C.createInstruction s2.numCreate MCI
        let s3 := { s2 with events := s2.events ++ [Event.createInstruction MCI InstOrErr],
                            numCreate := s2.numCreate + 1 }
        match InstOrErr with
        | BuildResult.failed e => (s3, some (RunResult.failure e))
        | BuildResult.recycled none => (s3, some RunResult.undefined)
        | BuildResult.recycled (some RecycledInst) =>
          convertLoop C O TraceOS rest
            { s3 with events := s3.events ++ [Event.addRecycledInst MCI RecycledInst] }
        | BuildResult.built I =>
          convertLoop C O TraceOS rest { s3 with events := s3.events ++ [Event.addInst MCI I] }

/-- The rest of one iteration of the `while` loop after the fetch (lines
137-181): slice the buffer, convert and submit, run the pipeline. -/
def chunk (C : Collaborators) (O : Options) (TraceOS : Bool) (Len : Nat) (s : State) :
    State × Option RunResult :=
  let TraceBufferSlice := take_front s.TraceBuffer Len
  match convertLoop C O TraceOS TraceBufferSlice s with
  | (s1, some r) => (s1, some r)
  | (s1, none) =>
    match runPipeline C s1 with
    | (s2, some E) => (s2, some (RunResult.failure E))
    | (s2, none) => (s2, none)

/-- The call `TheBroker->fetch(TraceBuffer)` (line 131). -/
def fetch (r : FetchResult) (s : State) : State :=
  { s with TraceBuffer := brokerWrite r.written s.TraceBuffer,
           events := s.events ++ [Event.fetch s.TraceBuffer.length r.ret] }

/-- The iteration in which `fetch` returned a negative value (lines 132-136):
`Len` becomes 0, the end of the stream is signalled, and the loop is left
after this iteration. -/
def lastIteration (C : Collaborators) (O : Options) (TraceOS : Bool) (r : FetchResult)
    (s : State) : State × RunResult :=
  let s1 := fetch r s
  let s2 := { s1 with events := s1.events ++ [Event.endOfStream] }
  match chunk C O TraceOS 0 s2 with
  | (s3, some res) => (s3, res)
  | (s3, none) => (s3, RunResult.success)

/-- The `while (Continue)` loop of `run` (lines 129-182).  The Broker is the list
of the results of its successive `fetch` calls; once the list is used up it
answers -1 and writes nothing, as `Broker::fetch` of Broker.h does. -/
def whileLoop (C : Collaborators) (O : Options) (TraceOS : Bool) :
    List FetchResult → State → State × RunResult
  | [], s => lastIteration C O TraceOS { ret := -1, written := [] } s
  | r :: more, s =>
    if r.ret < 0 then lastIteration C O TraceOS r s
    else
      match chunk C O TraceOS r.ret.toNat (fetch r s) with
      | (s1, some res) => (s1, res)
      | (s1, none) => whileLoop C O TraceOS more s1

/-- Whether the trace stream `TraceOS` is non-null (lines 113-124). -/
def traceOpen (C : Collaborators) (O : Options) : Bool :=
  O.TraceMCI && !C.EC

/-- The state in which `run` enters the `while` loop (lines 113-129): the buffer
is created with `MaxNumProcessedInst` null slots, nothing is written to the
trace stream yet and `keep()` has not been called. -/
def loopEntry (O : Options) (w : State) : State :=
  { w with TraceBuffer := List.replicate O.MaxNumProcessedInst none,
           traceOut := [], kept := false }

/-- The state at the head of the iteration that follows the fetches `pre`, when
the loop gets that far: each of these fetches returned a non-negative value and
its iteration ran to its end. -/
def loopHead (C : Collaborators) (O : Options) (TraceOS : Bool) :
    List FetchResult → State → Option State
  | [], s => some s
  | r :: more, s =>
    if r.ret < 0 then none
    else
      match chunk C O TraceOS r.ret.toNat (fetch r s) with
      | (s1, none) => loopHead C O TraceOS more s1
      | (_, some _) => none

/-- The member function `MCAWorker::run` (lines 107-188).  `TheBroker` is `none`
when no Broker is set; `w` is the worker on entry; `keep()` is called after the
loop when tracing was requested. -/
def run (C : Collaborators) (O : Options) (TheBroker : Option (List FetchResult))
    (w : State) : State × RunResult :=
  match TheBroker with
  | none => (w, RunResult.failure "No Broker is set")
  | some B =>
    match whileLoop C O (traceOpen C O) B (loopEntry O w) with
    | (s, RunResult.success) => ({ s with kept := O.TraceMCI }, RunResult.success)
    | (s, res) => (s, res)

/-- A worker as the constructor leaves it: nothing retained, nothing called yet. -/
def newWorker : State :=
  { TraceBuffer := [], TraceMIs := [], events := [], traceOut := [],
    numCreate := 0, numRun := 0, kept := false }

/-! ## Vocabulary of the properties -/

/-- The instruction is left out of the submission: it is classified as a
return, or as a call while calls are not included. -/
def excluded (C : Collaborators) (O : Options) (MCI : MCInst) : Bool :=
  (C.MCII MCI.opcode).isReturn || (!O.PreserveCallInst && (C.MCII MCI.opcode).isCall)

/-- The instructions of a list of fetched pointers with the excluded ones removed. -/
def unfiltered (C : Collaborators) (O : Options) (l : List MCInstPtr) : List MCInst :=
  l.filterMap (fun p => p.filter (fun MCI => !excluded C O MCI))

/-- The instructions handed to the Source Manager by `addInst` or
`addRecycledInst`, in call order. -/
def submitted (evs : List Event) : List MCInst :=
  evs.filterMap (fun e =>
    match e with
    | Event.addInst MCI _ => some MCI
    | Event.addRecycledInst MCI _ => some MCI
    | _ => none)

/-- The values returned by the `fetch` calls, in call order. -/
def fetchReturns (evs : List Event) : List Int :=
  evs.filterMap (fun e =>
    match e with
    | Event.fetch _ ret => some ret
    | _ => none)

/-- The results of the `MCAPipeline->run()` calls, in call order. -/
def pipelineRuns (evs : List Event) : List PipelineResult :=
  evs.filterMap (fun e =>
    match e with
    | Event.pipelineRun r => some r
    | _ => none)

/-- The event is a call on the builder or a submission. -/
def Event.isConvert : Event → Bool
  | Event.createInstruction _ _ => true
  | Event.addInst _ _ => true
  | Event.addRecycledInst _ _ => true
  | _ => false

/-- The event is a submission to the Source Manager. -/
def Event.isSubmit : Event → Bool
  | Event.addInst _ _ => true
  | Event.addRecycledInst _ _ => true
  | _ => false

/-- The event is a `fetch` call. -/
def Event.isFetch : Event → Bool
  | Event.fetch _ _ => true
  | _ => false

/-- The event is a `fetch` call that returned a negative value. -/
def Event.isExhausted : Event → Bool
  | Event.fetch _ ret => decide (ret < 0)
  | _ => false

/-- The event is a builder call that failed with an error other than the recycle signal. -/
def Event.isBuildFailure : Event → Bool
  | Event.createInstruction _ (BuildResult.failed _) => true
  | _ => false

/-- The lines the trace stream gets for a list of instructions. -/
def rendered (C : Collaborators) (l : List MCInst) : List String :=
  l.map (fun MCI => C.printInst MCI ++ "\n")

/-- The pointers the worker reads from the buffer over the fetches of a Broker,
in order, up to its first negative return: after each fetch, the first `Len`
slots of the buffer. -/
def fetched : List MCInstPtr → List FetchResult → List MCInstPtr
  | _, [] => []
  | buf, r :: more =>
    if r.ret < 0 then []
    else take_front (brokerWrite r.written buf) r.ret.toNat
      ++ fetched (brokerWrite r.written buf) more

/-- The pointers a Broker delivers: the batches it wrote, in order, up to its
first negative return. -/
def delivered : List FetchResult → List MCInstPtr
  | [] => []
  | r :: more => if r.ret < 0 then [] else r.written ++ delivered more

/-- The values the `fetch` calls of a Broker return, up to and including the
first negative one. -/
def answers : List FetchResult → List Int
  | [] => [-1]
  | r :: more => if r.ret < 0 then [r.ret] else r.ret :: answers more

/-- The calls of a run fall into two parts: a body with no `endOfStream` and no
negative `fetch`, then either nothing (the run was cut short) or the three
calls of the last iteration. -/
def RunShape (evs : List Event) : Prop :=
  ∃ body tail, evs = body ++ tail ∧
    (∀ x ∈ body, x ≠ Event.endOfStream ∧ x.isExhausted = false ∧ (x.isFetch = true ∨
      x.isConvert = true ∨ ∃ r, x = Event.pipelineRun r)) ∧
    (tail = [] ∨ ∃ n ret r, ret < 0 ∧
      tail = [Event.fetch n ret, Event.endOfStream, Event.pipelineRun r])

/-- What the `while` loop has done when it goes from state `s` to state `s1` with
result `res`, the worker reading `input` from the buffer over the fetches and
the Broker answering `ans`: it retained a prefix `done` of `input`, made the
calls `evs`, printed the kept instructions of `done`, and how it ended tells
how far it got. -/
def LoopPost (C : Collaborators) (O : Options) (T : Bool) (input : List MCInstPtr)
    (ans : List Int) (s s1 : State) (res : RunResult) : Prop :=
  ∃ done evs,
    s1.TraceMIs = s.TraceMIs ++ done ∧
    s1.events = s.events ++ evs ∧
    s1.traceOut = s.traceOut ++ (if T then rendered C (unfiltered C O done) else []) ∧
    s1.TraceBuffer.length = s.TraceBuffer.length ∧
    done <+: input ∧
    (∀ n r, Event.fetch n r ∈ evs → n = s.TraceBuffer.length) ∧
    RunShape evs ∧
    (res = RunResult.success →
      done = input ∧ none ∉ input ∧ submitted evs = unfiltered C O input ∧
      fetchReturns evs = ans ∧ (pipelineRuns evs).length = ans.length) ∧
    (∀ e, res = RunResult.failure e →
      (∀ x ∈ evs, x.isBuildFailure = false) ∨
      ∃ pre MCI evs0, done = pre ++ [some MCI] ∧ excluded C O MCI = false ∧
        evs = evs0 ++ [Event.createInstruction MCI (BuildResult.failed e)] ∧
        submitted evs0 = unfiltered C O pre ∧ ∀ x ∈ evs0, x.isBuildFailure = false) ∧
    ((∀ e, res ≠ RunResult.failure e) → ∀ x ∈ evs, x.isBuildFailure = false)

/-- The contract of `Broker::fetch` (Broker.h lines 16-23): a non-negative
return value is the number of pointers put into the buffer, which fit in it. -/
def honoursContract (cap : Nat) (B : List FetchResult) : Prop :=
  ∀ r ∈ B, 0 ≤ r.ret → r.ret = (r.written.length : Int) ∧ r.written.length ≤ cap

instance (cap : Nat) (B : List FetchResult) : Decidable (honoursContract cap B) := by
  unfold honoursContract; infer_instance

/-- The call with the result of a pipeline run blanked out. -/
def Event.blank : Event → Event
  | Event.pipelineRun _ => Event.pipelineRun PipelineResult.pause
  | e => e

/-- Two states agree on everything but the results of the pipeline runs made so
far and their number. -/
def SameButPipeline (s1 s2 : State) : Prop :=
  s1.TraceBuffer = s2.TraceBuffer ∧ s1.TraceMIs = s2.TraceMIs ∧
    s1.events.map Event.blank = s2.events.map Event.blank ∧
    s1.traceOut = s2.traceOut ∧ s1.numCreate = s2.numCreate ∧ s1.kept = s2.kept

/-- The collaborators `C` with a pipeline that answers `InstStreamPause` to every
call numbered below `start + K` (the first `K` calls of a run entered after
`start` calls) and a cycle count to every later call. -/
def pausingFirst (C : Collaborators) (start K : Nat) (cyc : Nat → Nat) : Collaborators :=
  { C with pipelineRun := fun n =>
      if n < start + K then PipelineResult.pause else PipelineResult.cycles (cyc n) }

/-- The collaborators `C` with a pipeline that never pauses and never fails. -/
def neverPausing (C : Collaborators) (cyc : Nat → Nat) : Collaborators :=
  { C with pipelineRun := fun n => PipelineResult.cycles (cyc n) }

/-! ## Concrete collaborators and Brokers for the scenarios -/

/-- The instruction at address `n` with opcode `n`. -/
def inst (n : Nat) : MCInst := { addr := n, opcode := n }

/-- Collaborators of the scenarios: opcode 2 is a call, opcode 9 a return, the
builder always builds a new instruction, the pipeline always reports a cycle
count, an instruction is printed as its address, the trace file opens. -/
def demoCollaborators : Collaborators :=
  { MCII := fun op => { isReturn := op == 9, isCall := op == 2 },
    createInstruction := fun n _ => BuildResult.built (100 + n),
    pipelineRun := fun n => PipelineResult.cycles n,
    printInst := fun MCI => toString MCI.addr,
    EC := false }

/-- Collaborators whose builder fails on its second call. -/
def failingCollaborators : Collaborators :=
  { demoCollaborators with
    createInstruction := fun n _ =>
      if n = 1 then BuildResult.failed "unsupported" else BuildResult.built (100 + n) }

/-- Scenario A: the Broker yields instructions 1, 2 and 3 in one batch, then is exhausted. -/
def scenarioA : List FetchResult :=
  [{ ret := 3, written := [some (inst 1), some (inst 2), some (inst 3)] },
   { ret := -1, written := [] }]

/-- Scenario B: five instructions delivered to a buffer of two slots in full
batches, then exhaustion. -/
def scenarioB : List FetchResult :=
  [{ ret := 2, written := [some (inst 1), some (inst 2)] },
   { ret := 2, written := [some (inst 3), some (inst 4)] },
   { ret := 1, written := [some (inst 5)] },
   { ret := -1, written := [] }]

/-! ## Facts about the recycling pool -/

theorem pooled_mapStore_same (m : RecycledMap) (D : DescPtr) (v : List InstPtr) :
    pooled (mapStore m D v) D = v := by
  induction m with
  | nil => simp [mapStore, pooled, mapFind]
  | cons kv rest ih =>
    obtain ⟨k, w⟩ := kv
    by_cases h : k = D
    · simp [mapStore, pooled, mapFind, h]
    · simpa [mapStore, pooled, mapFind, h] using ih

theorem pooled_mapStore_other (m : RecycledMap) (D D' : DescPtr) (v : List InstPtr)
    (h : D' ≠ D) : pooled (mapStore m D v) D' = pooled m D' := by
  induction m with
  | nil => simp [mapStore, pooled, mapFind, Ne.symm h]
  | cons kv rest ih =>
    obtain ⟨k, w⟩ := kv
    by_cases hk : k = D
    · subst hk
      simp [mapStore, pooled, mapFind, Ne.symm h]
    · by_cases hk' : k = D'
      · subst hk'
        simp [mapStore, pooled, mapFind, h]
      · simpa [mapStore, pooled, mapFind, hk, hk'] using ih

theorem mem_setInsert (I x : InstPtr) (l : List InstPtr) :
    x ∈ setInsert I l ↔ x = I ∨ x ∈ l := by
  induction l with
  | nil => simp [setInsert]
  | cons y ys ih =>
    unfold setInsert
    split_ifs with h1 h2
    · simp
    · subst h2; simp
    · simp [ih]; tauto

/-- Strictly increasing lists: the shape of every pooled set. -/
theorem sorted_setInsert (I : InstPtr) (l : List InstPtr) (h : l.Sorted (· < ·)) :
    (setInsert I l).Sorted (· < ·) := by
  induction l with
  | nil => simp [setInsert]
  | cons y ys ih =>
    have hy := List.sorted_cons.mp h
    unfold setInsert
    split_ifs with h1 h2
    · refine List.sorted_cons.mpr ⟨?_, h⟩
      intro b hb
      rcases List.mem_cons.mp hb with rfl | hb
      · exact h1
      · exact lt_trans h1 (hy.1 b hb)
    · exact h
    · refine List.sorted_cons.mpr ⟨?_, ih hy.2⟩
      intro b hb
      rcases (mem_setInsert I b ys).mp hb with rfl | hb
      · exact lt_of_le_of_ne (not_lt.mp h1) (fun e => h2 e.symm)
      · exact hy.1 b hb

theorem get_fst (m : RecycledMap) (D : DescPtr) :
    (GetRecycledInst m D).1 = (pooled m D).head? := by
  unfold GetRecycledInst mapCount pooled
  cases h : mapFind m D with
  | none => simp
  | some v => cases v <;> simp

theorem get_snd (m : RecycledMap) (D : DescPtr) :
    (GetRecycledInst m D).2 = match pooled m D with
      | [] => m
      | _ :: rest => mapStore m D rest := by
  unfold GetRecycledInst mapCount pooled
  cases h : mapFind m D with
  | none => simp
  | some v => cases v <;> simp [pooled, h]

theorem poolInv_step (getDesc : InstPtr → DescPtr) (hist : List PoolOp) (m : RecycledMap)
    (op : PoolOp) (h : PoolInv getDesc hist m) :
    PoolInv getDesc (hist ++ [op]) (poolAfter getDesc m [op]) := by
  intro D'
  cases op with
  | add I =>
    simp only [poolAfter, AddRecycledInst]
    by_cases hD : D' = getDesc I
    · subst hD
      rw [pooled_mapStore_same]
      refine ⟨sorted_setInsert _ _ (h _).1, ?_⟩
      intro J hJ
      rcases (mem_setInsert _ _ _).mp hJ with rfl | hJ
      · simp
      · have := (h _).2 J hJ
        exact ⟨this.1, List.mem_append_left _ this.2⟩
    · rw [pooled_mapStore_other _ _ _ _ hD]
      refine ⟨(h _).1, ?_⟩
      intro J hJ
      have := (h _).2 J hJ
      exact ⟨this.1, List.mem_append_left _ this.2⟩
  | get D =>
    simp only [poolAfter, get_snd]
    cases hp : pooled m D with
    | nil =>
      refine ⟨(h _).1, ?_⟩
      intro J hJ
      have := (h _).2 J hJ
      exact ⟨this.1, List.mem_append_left _ this.2⟩
    | cons x rest =>
      simp only
      by_cases hD : D' = D
      · subst hD
        rw [pooled_mapStore_same]
        have hs := (h D').1
        rw [hp] at hs
        refine ⟨(List.sorted_cons.mp hs).2, ?_⟩
        intro J hJ
        have := (h D').2 J (by rw [hp]; exact List.mem_cons_of_mem _ hJ)
        exact ⟨this.1, List.mem_append_left _ this.2⟩
      · rw [pooled_mapStore_other _ _ _ _ hD]
        refine ⟨(h _).1, ?_⟩
        intro J hJ
        have := (h _).2 J hJ
        exact ⟨this.1, List.mem_append_left _ this.2⟩

theorem poolAfter_append (getDesc : InstPtr → DescPtr) (m : RecycledMap) (a b : List PoolOp) :
    poolAfter getDesc m (a ++ b) = poolAfter getDesc (poolAfter getDesc m a) b := by
  induction a generalizing m with
  | nil => rfl
  | cons op a ih => cases op <;> simp [poolAfter, ih]

theorem poolInv_after (getDesc : InstPtr → DescPtr) (ops : List PoolOp) :
    PoolInv getDesc ops (poolAfter getDesc [] ops) := by
  induction ops using List.reverseRecOn with
  | nil => intro D; simp [poolAfter, pooled, mapFind]
  | append_singleton ops op ih =>
    rw [poolAfter_append]
    exact poolInv_step getDesc ops _ op ih

theorem get_removes (getDesc : InstPtr → DescPtr) (hist : List PoolOp) (m : RecycledMap)
    (hinv : PoolInv getDesc hist m) (D : DescPtr) (I : InstPtr)
    (h : (GetRecycledInst m D).1 = some I) :
    pooled m D = I :: pooled (GetRecycledInst m D).2 D ∧
      (∀ D', D' ≠ D → pooled (GetRecycledInst m D).2 D' = pooled m D') ∧
      ∀ D', I ∉ pooled (GetRecycledInst m D).2 D' := by
  rw [get_fst] at h
  rw [get_snd]
  cases hp : pooled m D with
  | nil => simp [hp] at h
  | cons x rest =>
    simp only [hp, List.head?_cons, Option.some.injEq] at h
    subst h
    simp only
    have hs := (hinv D).1
    rw [hp] at hs
    have hnot : x ∉ rest := fun hx => lt_irrefl _ ((List.sorted_cons.mp hs).1 x hx)
    refine ⟨by rw [pooled_mapStore_same], fun D' hD' => pooled_mapStore_other _ _ _ _ hD', ?_⟩
    intro D'
    by_cases hD : D' = D
    · subst hD
      rw [pooled_mapStore_same]
      exact hnot
    · rw [pooled_mapStore_other _ _ _ _ hD]
      intro hx
      have h1 := ((hinv D').2 x hx).1
      have h2 := ((hinv D).2 x (by rw [hp]; exact List.mem_cons_self _ _)).1
      exact hD (h1.symm.trans h2)

theorem not_pooled_preserved (getDesc : InstPtr → DescPtr) (I : InstPtr) (mid : List PoolOp)
    (m : RecycledMap) (h : ∀ D, I ∉ pooled m D) (hmid : PoolOp.add I ∉ mid) :
    ∀ D, I ∉ pooled (poolAfter getDesc m mid) D := by
  induction mid generalizing m with
  | nil => simpa [poolAfter] using h
  | cons op mid ih =>
    have hop : PoolOp.add I ≠ op := fun e => hmid (by simp [e])
    have hmid' : PoolOp.add I ∉ mid := fun e => hmid (List.mem_cons_of_mem _ e)
    cases op with
    | add J =>
      have hJ : I ≠ J := fun e => hop (by rw [e])
      simp only [poolAfter]
      apply ih _ _ hmid'
      intro D
      unfold AddRecycledInst
      by_cases hD : D = getDesc J
      · subst hD
        rw [pooled_mapStore_same, mem_setInsert]
        exact fun e => e.elim hJ (h _)
      · rw [pooled_mapStore_other _ _ _ _ hD]
        exact h D
    | get D0 =>
      simp only [poolAfter]
      apply ih _ _ hmid'
      intro D
      rw [get_snd]
      cases hp : pooled m D0 with
      | nil => exact h D
      | cons x rest =>
        simp only
        by_cases hD : D = D0
        · subst hD
          rw [pooled_mapStore_same]
          intro hx
          exact h D (by rw [hp]; exact List.mem_cons_of_mem _ hx)
        · rw [pooled_mapStore_other _ _ _ _ hD]
          exact h D

/-- C4: starting from an empty `RecycledInsts`, after any sequence of pool calls,
an instance `I` returned by `GetRecycledInst(D)` has descriptor `D` and was
inserted by an earlier `AddRecycledInst(I)`; a request keyed by another
descriptor never returns it. -/
theorem recycled_descriptor_match (getDesc : InstPtr → DescPtr) (ops : List PoolOp)
    (D : DescPtr) (I : InstPtr)
    (h : (GetRecycledInst (poolAfter getDesc [] ops) D).1 = some I) :
    getDesc I = D ∧ PoolOp.add I ∈ ops ∧
      ∀ D', D' ≠ D → (GetRecycledInst (poolAfter getDesc [] ops) D').1 ≠ some I := by
  have hinv := poolInv_after getDesc ops
  have key : ∀ D0, (GetRecycledInst (poolAfter getDesc [] ops) D0).1 = some I →
      getDesc I = D0 ∧ PoolOp.add I ∈ ops := by
    intro D0 h0
    rw [get_fst] at h0
    exact (hinv D0).2 I (List.mem_of_mem_head? h0)
  refine ⟨(key D h).1, (key D h).2, ?_⟩
  intro D' hD' h'
  exact hD' ((key D' h').1.symm.trans (key D h).1)

theorem recycled_descriptor_match_witness :
    (GetRecycledInst (poolAfter (fun I => I % 2) []
        [PoolOp.add 3, PoolOp.add 4, PoolOp.get 0, PoolOp.add 5]) 1).1 = some 3 ∧
      (3 % 2 = 1 ∧ PoolOp.add 3 ∈ [PoolOp.add 3, PoolOp.add 4, PoolOp.get 0, PoolOp.add 5] ∧
        ∀ D', D' ≠ 1 → (GetRecycledInst (poolAfter (fun I => I % 2) []
          [PoolOp.add 3, PoolOp.add 4, PoolOp.get 0, PoolOp.add 5]) D').1 ≠ some 3) :=
  ⟨by decide, recycled_descriptor_match (fun I => I % 2)
      [PoolOp.add 3, PoolOp.add 4, PoolOp.get 0, PoolOp.add 5] 1 3 (by decide)⟩

/-- C5: for a pool reached from the empty map, `GetRecycledInst(D)` returns an
instance exactly when the set pooled under `D` is non-empty; the instance
returned was a member of that set and is no longer pooled anywhere, every other
instance under `D` and every set under another descriptor is unchanged; when
nothing is returned the map is unchanged; and an instance handed out is not
handed out again before an `AddRecycledInst` of that instance. -/
theorem get_recycled_inst_spec (getDesc : InstPtr → DescPtr) (ops : List PoolOp)
    (D : DescPtr) :
    (((GetRecycledInst (poolAfter getDesc [] ops) D).1 ≠ none ↔
        pooled (poolAfter getDesc [] ops) D ≠ []) ∧
      ((GetRecycledInst (poolAfter getDesc [] ops) D).1 = none →
        (GetRecycledInst (poolAfter getDesc [] ops) D).2 = poolAfter getDesc [] ops)) ∧
    ∀ I, (GetRecycledInst (poolAfter getDesc [] ops) D).1 = some I →
      I ∈ pooled (poolAfter getDesc [] ops) D ∧
      (∀ D', I ∉ pooled (GetRecycledInst (poolAfter getDesc [] ops) D).2 D') ∧
      (∀ J, J ≠ I → (J ∈ pooled (GetRecycledInst (poolAfter getDesc [] ops) D).2 D ↔
        J ∈ pooled (poolAfter getDesc [] ops) D)) ∧
      (∀ D', D' ≠ D → pooled (GetRecycledInst (poolAfter getDesc [] ops) D).2 D' =
        pooled (poolAfter getDesc [] ops) D') ∧
      ∀ mid D', PoolOp.add I ∉ mid →
        (GetRecycledInst (poolAfter getDesc [] (ops ++ PoolOp.get D :: mid)) D').1 ≠ some I := by
  have hinv := poolInv_after getDesc ops
  refine ⟨⟨?_, ?_⟩, ?_⟩
  · rw [get_fst]
    cases pooled (poolAfter getDesc [] ops) D <;> simp
  · intro h
    rw [get_fst] at h
    rw [get_snd]
    cases hp : pooled (poolAfter getDesc [] ops) D with
    | nil => rfl
    | cons x rest => simp [hp] at h
  · intro I h
    obtain ⟨h1, h2, h3⟩ := get_removes getDesc ops _ hinv D I h
    refine ⟨by rw [h1]; exact List.mem_cons_self _ _, h3, ?_, h2, ?_⟩
    · intro J hJ
      rw [h1]
      simp [hJ]
    · intro mid D' hmid hget
      rw [poolAfter_append] at hget
      simp only [poolAfter] at hget
      have := not_pooled_preserved getDesc I mid _ h3 hmid D'
      rw [get_fst] at hget
      exact this (List.mem_of_mem_head? hget)

theorem get_recycled_inst_spec_witness :
    (GetRecycledInst (poolAfter (fun I => I % 2) [] [PoolOp.add 3, PoolOp.add 5]) 1).1 = some 3 ∧
      3 ∈ pooled (poolAfter (fun I => I % 2) [] [PoolOp.add 3, PoolOp.add 5]) 1 ∧
      (GetRecycledInst (poolAfter (fun I => I % 2) []
        ([PoolOp.add 3, PoolOp.add 5] ++ PoolOp.get 1 :: [PoolOp.add 7])) 1).1 ≠ some 3 :=
  ⟨by decide,
    ((get_recycled_inst_spec (fun I => I % 2) [PoolOp.add 3, PoolOp.add 5] 1).2 3
      (by decide)).1,
    ((get_recycled_inst_spec (fun I => I % 2) [PoolOp.add 3, PoolOp.add 5] 1).2 3
      (by decide)).2.2.2.2 [PoolOp.add 7] 1 (by decide)⟩

/-! ## The conversion loop, case by case -/

theorem take_front_eq_take (A : List MCInstPtr) (N : Nat) : take_front A N = A.take N := by
  unfold take_front
  split_ifs with h
  · exact (List.take_of_length_le h).symm
  · rfl

theorem brokerWrite_length (w buf : List MCInstPtr) :
    (brokerWrite w buf).length = buf.length := by
  unfold brokerWrite
  simp only [List.length_take, List.length_append, List.length_drop]
  omega

theorem convertLoop_null (C : Collaborators) (O : Options) (T : Bool)
    (rest : List MCInstPtr) (s : State) :
    convertLoop C O T (none :: rest) s =
      ({ s with TraceMIs := s.TraceMIs ++ [none] }, some RunResult.undefined) := by
  simp [convertLoop]

theorem convertLoop_skip (C : Collaborators) (O : Options) (T : Bool) (MCI : MCInst)
    (rest : List MCInstPtr) (s : State) (h : excluded C O MCI = true) :
    convertLoop C O T (some MCI :: rest) s =
      convertLoop C O T rest { s with TraceMIs := s.TraceMIs ++ [some MCI] } := by
  unfold excluded at h
  by_cases h1 : (C.MCII MCI.opcode).isReturn = true
  · simp [convertLoop, h1]
  · have h2 : (!O.PreserveCallInst && (C.MCII MCI.opcode).isCall) = true := by
      simpa [h1] using h
    simp only [Bool.not_eq_true] at h1
    simp [convertLoop, h1, h2]

/-- The state after the instruction passed the filter and the builder was called. -/
theorem convertLoop_keep (C : Collaborators) (O : Options) (T : Bool) (MCI : MCInst)
    (rest : List MCInstPtr) (s : State) (h : excluded C O MCI = false) :
    convertLoop C O T (some MCI :: rest) s =
      match C.createInstruction s.numCreate MCI with
      | BuildResult.failed e =>
        ({ s with TraceMIs := s.TraceMIs ++ [some MCI],
                  traceOut := s.traceOut ++ (if T then [C.printInst MCI ++ "\n"] else []),
                  events := s.events ++
                    [Event.createInstruction MCI (C.createInstruction s.numCreate MCI)],
                  numCreate := s.numCreate + 1 }, some (RunResult.failure e))
      | BuildResult.recycled none =>
        ({ s with TraceMIs := s.TraceMIs ++ [some MCI],
                  traceOut := s.traceOut ++ (if T then [C.printInst MCI ++ "\n"] else []),
                  events := s.events ++
                    [Event.createInstruction MCI (C.createInstruction s.numCreate MCI)],
                  numCreate := s.numCreate + 1 }, some RunResult.undefined)
      | BuildResult.recycled (some I) =>
        convertLoop C O T rest
          { s with TraceMIs := s.TraceMIs ++ [some MCI],
                   traceOut := s.traceOut ++ (if T then [C.printInst MCI ++ "\n"] else []),
                   events := s.events ++
                    [Event.createInstruction MCI (C.createInstruction s.numCreate MCI),
                     Event.addRecycledInst MCI I],
                   numCreate := s.numCreate + 1 }
      | BuildResult.built I =>
        convertLoop C O T rest
          { s with TraceMIs := s.TraceMIs ++ [some MCI],
                   traceOut := s.traceOut ++ (if T then [C.printInst MCI ++ "\n"] else []),
                   events := s.events ++
                    [Event.createInstruction MCI (C.createInstruction s.numCreate MCI),
                     Event.addInst MCI I],
                   numCreate := s.numCreate + 1 } := by
  unfold excluded at h
  simp only [Bool.or_eq_false_iff] at h
  obtain ⟨h1, h2⟩ := h
  cases T <;> cases hb : C.createInstruction s.numCreate MCI with
  | failed e => simp [convertLoop, h1, h2, hb]
  | built I => simp [convertLoop, h1, h2, hb]
  | recycled I => cases I <;> simp [convertLoop, h1, h2, hb]

@[simp] theorem unfiltered_nil (C : Collaborators) (O : Options) : unfiltered C O [] = [] := rfl

theorem unfiltered_append (C : Collaborators) (O : Options) (a b : List MCInstPtr) :
    unfiltered C O (a ++ b) = unfiltered C O a ++ unfiltered C O b := by
  simp [unfiltered, List.filterMap_append]

theorem unfiltered_null (C : Collaborators) (O : Options) (l : List MCInstPtr) :
    unfiltered C O (none :: l) = unfiltered C O l := by
  simp [unfiltered, List.filterMap_cons]

theorem unfiltered_skip (C : Collaborators) (O : Options) (MCI : MCInst) (l : List MCInstPtr)
    (h : excluded C O MCI = true) : unfiltered C O (some MCI :: l) = unfiltered C O l := by
  simp [unfiltered, List.filterMap_cons, Option.filter, h]

theorem unfiltered_keep (C : Collaborators) (O : Options) (MCI : MCInst) (l : List MCInstPtr)
    (h : excluded C O MCI = false) :
    unfiltered C O (some MCI :: l) = MCI :: unfiltered C O l := by
  simp [unfiltered, List.filterMap_cons, Option.filter, h]

theorem submitted_append (a b : List Event) : submitted (a ++ b) = submitted a ++ submitted b := by
  simp [submitted, List.filterMap_append]

theorem rendered_append (C : Collaborators) (a b : List MCInst) :
    rendered C (a ++ b) = rendered C a ++ rendered C b := by
  simp [rendered]

/-- The effect of the conversion loop on a slice `l`: it retains a prefix `done`
of the slice, logs builder calls and submissions `evs`, prints the kept
instructions of `done`, and leaves the buffer alone; how it ends tells how far
it got. -/
theorem convertLoop_spec (C : Collaborators) (O : Options) (T : Bool) (l : List MCInstPtr) :
    ∀ s : State, ∃ done evs,
      (convertLoop C O T l s).1.TraceMIs = s.TraceMIs ++ done ∧
      (convertLoop C O T l s).1.events = s.events ++ evs ∧
      (convertLoop C O T l s).1.traceOut =
        s.traceOut ++ (if T then rendered C (unfiltered C O done) else []) ∧
      (convertLoop C O T l s).1.TraceBuffer = s.TraceBuffer ∧
      (convertLoop C O T l s).1.kept = s.kept ∧
      (convertLoop C O T l s).1.numRun = s.numRun ∧
      done <+: l ∧
      (∀ x ∈ evs, x.isConvert = true) ∧
      ((convertLoop C O T l s).2 = none →
        done = l ∧ submitted evs = unfiltered C O l ∧ none ∉ l) ∧
      (∀ e, (convertLoop C O T l s).2 = some (RunResult.failure e) →
        ∃ pre MCI evs0, done = pre ++ [some MCI] ∧ excluded C O MCI = false ∧
          evs = evs0 ++ [Event.createInstruction MCI (BuildResult.failed e)] ∧
          submitted evs0 = unfiltered C O pre ∧ ∀ x ∈ evs0, x.isBuildFailure = false) ∧
      ((∀ e, (convertLoop C O T l s).2 ≠ some (RunResult.failure e)) →
        ∀ x ∈ evs, x.isBuildFailure = false) ∧
      (convertLoop C O T l s).2 ≠ some RunResult.success := by
  induction l with
  | nil =>
    intro s
    refine ⟨[], [], ?_⟩
    cases T <;> simp [convertLoop, rendered, submitted]
  | cons p rest ih =>
    intro s
    cases p with
    | none =>
      refine ⟨[none], [], ?_⟩
      rw [convertLoop_null]
      cases T <;> simp [rendered, unfiltered_null]
    | some MCI =>
      by_cases hx : excluded C O MCI = true
      · rw [convertLoop_skip C O T MCI rest s hx]
        obtain ⟨done, evs, h1, h2, h3, h4, h5, h6, h7, h8, h9, h10, h11, h12⟩ :=
          ih { s with TraceMIs := s.TraceMIs ++ [some MCI] }
        refine ⟨some MCI :: done, evs, ?_, h2, ?_, h4, h5, h6, ?_, h8, ?_, ?_, h11, h12⟩
        · simpa using h1
        · rw [unfiltered_skip C O MCI done hx]; exact h3
        · exact (List.prefix_cons_inj _).mpr h7
        · intro hn
          obtain ⟨ha, hb, hc⟩ := h9 hn
          exact ⟨by rw [ha], by rw [hb, unfiltered_skip C O MCI rest hx], by simp [hc]⟩
        · intro e he
          obtain ⟨pre, M, evs0, ha, hb, hc, hd, hf⟩ := h10 e he
          exact ⟨some MCI :: pre, M, evs0, by rw [ha]; rfl, hb, hc,
            by rw [hd, unfiltered_skip C O MCI pre hx], hf⟩
      · simp only [Bool.not_eq_true] at hx
        rw [convertLoop_keep C O T MCI rest s hx]
        cases hb : C.createInstruction s.numCreate MCI with
        | failed e =>
          refine ⟨[some MCI], [Event.createInstruction MCI (BuildResult.failed e)],
            by simp, by simp, ?_, by simp, by simp, by simp, by simp, by simp [Event.isConvert],
            by simp, ?_, by simp, by simp⟩
          · cases T <;> simp [rendered, unfiltered_keep C O MCI [] hx]
          · intro e1 he1
            simp only [Option.some.injEq, RunResult.failure.injEq] at he1
            subst he1
            exact ⟨[], MCI, [], rfl, hx, rfl, rfl, by simp⟩
        | recycled I =>
          cases I with
          | none =>
            refine ⟨[some MCI], [Event.createInstruction MCI (BuildResult.recycled none)], ?_⟩
            cases T <;>
              simp [rendered, unfiltered_keep C O MCI [] hx, Event.isConvert,
                Event.isBuildFailure]
          | some I =>
            simp only
            obtain ⟨done, evs, h1, h2, h3, h4, h5, h6, h7, h8, h9, h10, h11, h12⟩ :=
              ih { s with
                   TraceMIs := s.TraceMIs ++ [some MCI],
                   traceOut := s.traceOut ++ (if T then [C.printInst MCI ++ "\n"] else []),
                   events := s.events ++
                    [Event.createInstruction MCI (BuildResult.recycled (some I)),
                     Event.addRecycledInst MCI I],
                   numCreate := s.numCreate + 1 }
            refine ⟨some MCI :: done,
              Event.createInstruction MCI (BuildResult.recycled (some I)) ::
                Event.addRecycledInst MCI I :: evs, ?_, ?_, ?_, h4, h5, h6, ?_, ?_, ?_, ?_, ?_, h12⟩
            · simpa using h1
            · simpa using h2
            · rw [h3, unfiltered_keep C O MCI done hx]
              cases T <;> simp [rendered]
            · exact (List.prefix_cons_inj _).mpr h7
            · intro x hxm
              simp only [List.mem_cons] at hxm
              rcases hxm with rfl | rfl | hxm
              · rfl
              · rfl
              · exact h8 x hxm
            · intro hn
              obtain ⟨ha, hb, hc⟩ := h9 hn
              refine ⟨by rw [ha], ?_, by simp [hc]⟩
              rw [unfiltered_keep C O MCI rest hx, ← hb]
              simp [submitted]
            · intro e he
              obtain ⟨pre, M, evs0, ha, hb, hc, hd, hf⟩ := h10 e he
              refine ⟨some MCI :: pre, M,
                Event.createInstruction MCI (BuildResult.recycled (some I)) ::
                  Event.addRecycledInst MCI I :: evs0, by rw [ha]; rfl, hb, by rw [hc]; rfl, ?_, ?_⟩
              · rw [unfiltered_keep C O MCI pre hx, ← hd]
                simp [submitted]
              · intro x hxm
                simp only [List.mem_cons] at hxm
                rcases hxm with rfl | rfl | hxm
                · rfl
                · rfl
                · exact hf x hxm
            · intro hne x hxm
              simp only [List.mem_cons] at hxm
              rcases hxm with rfl | rfl | hxm
              · rfl
              · rfl
              · exact h11 hne x hxm
        | built I =>
          simp only
          obtain ⟨done, evs, h1, h2, h3, h4, h5, h6, h7, h8, h9, h10, h11, h12⟩ :=
            ih { s with
                 TraceMIs := s.TraceMIs ++ [some MCI],
                 traceOut := s.traceOut ++ (if T then [C.printInst MCI ++ "\n"] else []),
                 events := s.events ++
                  [Event.createInstruction MCI (BuildResult.built I),
                   Event.addInst MCI I],
                 numCreate := s.numCreate + 1 }
          refine ⟨some MCI :: done,
            Event.createInstruction MCI (BuildResult.built I) ::
              Event.addInst MCI I :: evs, ?_, ?_, ?_, h4, h5, h6, ?_, ?_, ?_, ?_, ?_, h12⟩
          · simpa using h1
          · simpa using h2
          · rw [h3, unfiltered_keep C O MCI done hx]
            cases T <;> simp [rendered]
          · exact (List.prefix_cons_inj _).mpr h7
          · intro x hxm
            simp only [List.mem_cons] at hxm
            rcases hxm with rfl | rfl | hxm
            · rfl
            · rfl
            · exact h8 x hxm
          · intro hn
            obtain ⟨ha, hb, hc⟩ := h9 hn
            refine ⟨by rw [ha], ?_, by simp [hc]⟩
            rw [unfiltered_keep C O MCI rest hx, ← hb]
            simp [submitted]
          · intro e he
            obtain ⟨pre, M, evs0, ha, hb, hc, hd, hf⟩ := h10 e he
            refine ⟨some MCI :: pre, M,
              Event.createInstruction MCI (BuildResult.built I) ::
                Event.addInst MCI I :: evs0, by rw [ha]; rfl, hb, by rw [hc]; rfl, ?_, ?_⟩
            · rw [unfiltered_keep C O MCI pre hx, ← hd]
              simp [submitted]
            · intro x hxm
              simp only [List.mem_cons] at hxm
              rcases hxm with rfl | rfl | hxm
              · rfl
              · rfl
              · exact hf x hxm
          · intro hne x hxm
            simp only [List.mem_cons] at hxm
            rcases hxm with rfl | rfl | hxm
            · rfl
            · rfl
            · exact h11 hne x hxm

/-! ## One iteration of the `while` loop -/

theorem runPipeline_fst (C : Collaborators) (s : State) :
    (runPipeline C s).1 =
      { s with events := s.events ++ [Event.pipelineRun (C.pipelineRun s.numRun)],
               numRun := s.numRun + 1 } := by
  unfold runPipeline
  cases C.pipelineRun s.numRun <;> rfl

theorem runPipeline_snd (C : Collaborators) (s : State) :
    (runPipeline C s).2 =
      match C.pipelineRun s.numRun with
      | PipelineResult.cycles _ => none
      | PipelineResult.pause => none
      | PipelineResult.fatal e => some e := by
  unfold runPipeline
  cases C.pipelineRun s.numRun <;> rfl

/-- The effect of the body of one iteration (slice, convert, run the pipeline). -/
theorem chunk_spec (C : Collaborators) (O : Options) (T : Bool) (Len : Nat) (s : State) :
    ∃ done evs,
      (chunk C O T Len s).1.TraceMIs = s.TraceMIs ++ done ∧
      (chunk C O T Len s).1.events = s.events ++ evs ∧
      (chunk C O T Len s).1.traceOut =
        s.traceOut ++ (if T then rendered C (unfiltered C O done) else []) ∧
      (chunk C O T Len s).1.TraceBuffer = s.TraceBuffer ∧
      (chunk C O T Len s).1.kept = s.kept ∧
      done <+: take_front s.TraceBuffer Len ∧
      (∀ x ∈ evs, x.isConvert = true ∨ ∃ r, x = Event.pipelineRun r) ∧
      ((chunk C O T Len s).2 = none →
        done = take_front s.TraceBuffer Len ∧
        submitted evs = unfiltered C O (take_front s.TraceBuffer Len) ∧
        none ∉ take_front s.TraceBuffer Len ∧
        fetchReturns evs = [] ∧ (pipelineRuns evs).length = 1) ∧
      (∀ e, (chunk C O T Len s).2 = some (RunResult.failure e) →
        (∀ x ∈ evs, x.isBuildFailure = false) ∨
        ∃ pre MCI evs0, done = pre ++ [some MCI] ∧ excluded C O MCI = false ∧
          evs = evs0 ++ [Event.createInstruction MCI (BuildResult.failed e)] ∧
          submitted evs0 = unfiltered C O pre ∧ ∀ x ∈ evs0, x.isBuildFailure = false) ∧
      ((∀ e, (chunk C O T Len s).2 ≠ some (RunResult.failure e)) →
        ∀ x ∈ evs, x.isBuildFailure = false) ∧
      (chunk C O T Len s).2 ≠ some RunResult.success := by
  have hspec := convertLoop_spec C O T (take_front s.TraceBuffer Len) s
  simp only [chunk]
  generalize convertLoop C O T (take_front s.TraceBuffer Len) s = cr at hspec ⊢
  obtain ⟨s1, r1⟩ := cr
  obtain ⟨done, evs, h1, h2, h3, h4, h5, h6, h7, h8, h9, h10, h11, h12⟩ := hspec
  simp only at h1 h2 h3 h4 h5 h6 h9 h10 h11 h12
  cases r1 with
  | some r =>
    simp only
    refine ⟨done, evs, h1, h2, h3, h4, h5, h7, fun x hx => Or.inl (h8 x hx), by simp, ?_, ?_, ?_⟩
    · intro e he
      exact Or.inr (h10 e he)
    · exact h11
    · exact h12
  | none =>
    obtain ⟨hd, hs, hnn⟩ := h9 rfl
    have hnf : ∀ x ∈ evs, x.isBuildFailure = false := h11 (by simp)
    have hfr : fetchReturns evs = [] := by
      unfold fetchReturns
      rw [List.filterMap_eq_nil_iff]
      intro x hx
      have := h8 x hx
      cases x <;> simp_all [Event.isConvert]
    have hpr : pipelineRuns evs = [] := by
      unfold pipelineRuns
      rw [List.filterMap_eq_nil_iff]
      intro x hx
      have := h8 x hx
      cases x <;> simp_all [Event.isConvert]
    have hall : ∀ x ∈ evs ++ [Event.pipelineRun (C.pipelineRun s1.numRun)],
        x.isBuildFailure = false := by
      intro x hx
      rcases List.mem_append.mp hx with hx | hx
      · exact hnf x hx
      · simp only [List.mem_singleton] at hx
        subst hx
        rfl
    have hmem : ∀ x ∈ evs ++ [Event.pipelineRun (C.pipelineRun s1.numRun)],
        x.isConvert = true ∨ ∃ r, x = Event.pipelineRun r := by
      intro x hx
      rcases List.mem_append.mp hx with hx | hx
      · exact Or.inl (h8 x hx)
      · simp only [List.mem_singleton] at hx
        exact Or.inr ⟨_, hx⟩
    have hp : runPipeline C s1 = ((runPipeline C s1).1, (runPipeline C s1).2) := rfl
    rw [runPipeline_fst, runPipeline_snd] at hp
    refine ⟨done, evs ++ [Event.pipelineRun (C.pipelineRun s1.numRun)], ?_⟩
    simp only [hp]
    cases hq : C.pipelineRun s1.numRun with
    | fatal E =>
      simp only
      rw [hq] at hall hmem
      refine ⟨h1, by simp [h2], h3, h4, h5, h7, hmem, by simp, ?_, fun _ => hall, by simp⟩
      intro _ _
      exact Or.inl hall
    | cycles n =>
      simp only
      rw [hq] at hall hmem
      refine ⟨h1, by simp [h2], h3, h4, h5, h7, hmem, ?_, by simp, fun _ => hall, by simp⟩
      intro _
      refine ⟨hd, ?_, hnn, ?_, ?_⟩
      · rw [submitted_append, hs]; simp [submitted]
      · unfold fetchReturns at hfr ⊢
        rw [List.filterMap_append, hfr]; simp
      · unfold pipelineRuns at hpr ⊢
        rw [List.filterMap_append, hpr]; simp
    | pause =>
      simp only
      rw [hq] at hall hmem
      refine ⟨h1, by simp [h2], h3, h4, h5, h7, hmem, ?_, by simp, fun _ => hall, by simp⟩
      intro _
      refine ⟨hd, ?_, hnn, ?_, ?_⟩
      · rw [submitted_append, hs]; simp [submitted]
      · unfold fetchReturns at hfr ⊢
        rw [List.filterMap_append, hfr]; simp
      · unfold pipelineRuns at hpr ⊢
        rw [List.filterMap_append, hpr]; simp

/-- The iteration that sees a negative `fetch` return does exactly three calls. -/
theorem lastIteration_eq (C : Collaborators) (O : Options) (T : Bool) (r : FetchResult)
    (s : State) :
    lastIteration C O T r s =
      ({ s with TraceBuffer := brokerWrite r.written s.TraceBuffer,
                events := s.events ++ [Event.fetch s.TraceBuffer.length r.ret,
                  Event.endOfStream, Event.pipelineRun (C.pipelineRun s.numRun)],
                numRun := s.numRun + 1 },
        match C.pipelineRun s.numRun with
        | PipelineResult.fatal e => RunResult.failure e
        | _ => RunResult.success) := by
  have h0 : ∀ A : List MCInstPtr, take_front A 0 = [] := by
    intro A; rw [take_front_eq_take]; rfl
  unfold lastIteration chunk
  simp only [h0, convertLoop, fetch, runPipeline]
  cases C.pipelineRun s.numRun <;> simp

/-! ## The whole loop -/

theorem lastIteration_post (C : Collaborators) (O : Options) (T : Bool) (r : FetchResult)
    (s : State) (h : r.ret < 0) :
    LoopPost C O T [] [r.ret] s (lastIteration C O T r s).1 (lastIteration C O T r s).2 := by
  rw [lastIteration_eq]
  have hnf : ∀ x ∈ [Event.fetch s.TraceBuffer.length r.ret, Event.endOfStream,
      Event.pipelineRun (C.pipelineRun s.numRun)], x.isBuildFailure = false := by
    intro x hx
    simp only [List.mem_cons, List.mem_singleton, List.not_mem_nil, or_false] at hx
    rcases hx with rfl | rfl | rfl <;> rfl
  refine ⟨[], [Event.fetch s.TraceBuffer.length r.ret, Event.endOfStream,
    Event.pipelineRun (C.pipelineRun s.numRun)], by simp, by simp, ?_, ?_,
    List.prefix_refl _, ?_, ?_, ?_, ?_, ?_⟩
  · cases T <;> simp [rendered]
  · simp [brokerWrite_length]
  · intro n r' hm
    simp only [List.mem_cons, List.mem_singleton, List.not_mem_nil, or_false] at hm
    rcases hm with hm | hm | hm
    · injection hm with h1 h2
    · cases hm
    · cases hm
  · exact ⟨[], _, rfl, by simp, Or.inr ⟨_, _, _, h, rfl⟩⟩
  · intro _
    simp [submitted, fetchReturns, pipelineRuns]
  · intro e _
    exact Or.inl hnf
  · intro _
    exact hnf

theorem fetched_cons (buf : List MCInstPtr) (r : FetchResult) (more : List FetchResult)
    (h : ¬ r.ret < 0) :
    fetched buf (r :: more) =
      take_front (brokerWrite r.written buf) r.ret.toNat
        ++ fetched (brokerWrite r.written buf) more := by
  simp [fetched, h]

/-- The loop, characterised for every Broker and every starting state. -/
theorem whileLoop_post (C : Collaborators) (O : Options) (T : Bool) (B : List FetchResult) :
    ∀ s : State, LoopPost C O T (fetched s.TraceBuffer B) (answers B) s
      (whileLoop C O T B s).1 (whileLoop C O T B s).2 := by
  induction B with
  | nil =>
    intro s
    have := lastIteration_post C O T { ret := -1, written := [] } s (by decide)
    simpa [whileLoop, fetched, answers] using this
  | cons r more ih =>
    intro s
    by_cases hneg : r.ret < 0
    · have := lastIteration_post C O T r s hneg
      simpa [whileLoop, fetched, answers, hneg] using this
    · have hspec := chunk_spec C O T r.ret.toNat (fetch r s)
      rw [fetched_cons _ _ _ hneg]
      simp only [whileLoop, hneg, if_false, answers]
      generalize chunk C O T r.ret.toNat (fetch r s) = cr at hspec ⊢
      obtain ⟨s1, r1⟩ := cr
      obtain ⟨done1, evs1, c1, c2, c3, c4, c5, c6, c7, c8, c9, c10, c11⟩ := hspec
      simp only [fetch] at c1 c2 c3 c4 c5 c6 c8
      have hf1 : ∀ n r', Event.fetch n r' ∉ evs1 := by
        intro n r' hm
        rcases c7 _ hm with h | ⟨_, h⟩
        · simp [Event.isConvert] at h
        · cases h
      have hbody1 : ∀ x ∈ Event.fetch s.TraceBuffer.length r.ret :: evs1,
          x ≠ Event.endOfStream ∧ x.isExhausted = false ∧ (x.isFetch = true ∨
            x.isConvert = true ∨ ∃ r, x = Event.pipelineRun r) := by
        intro x hx
        rcases List.mem_cons.mp hx with rfl | hx
        · exact ⟨by simp, by simp [Event.isExhausted, hneg], Or.inl rfl⟩
        · rcases c7 x hx with h | ⟨p, rfl⟩
          · refine ⟨?_, ?_, Or.inr (Or.inl h)⟩
            · rintro rfl; simp [Event.isConvert] at h
            · cases x <;> simp_all [Event.isConvert, Event.isExhausted]
          · exact ⟨by simp, rfl, Or.inr (Or.inr ⟨p, rfl⟩)⟩
      cases r1 with
      | some res =>
        simp only
        simp only at c9 c10 c11
        refine ⟨done1, Event.fetch s.TraceBuffer.length r.ret :: evs1, c1, by simp [c2], c3,
          by rw [c4, brokerWrite_length], ?_, ?_, ?_, ?_, ?_, ?_⟩
        · exact List.IsPrefix.trans c6 (List.prefix_append _ _)
        · intro n r' hm
          rcases List.mem_cons.mp hm with hm | hm
          · injection hm with h1 h2
          · exact absurd hm (hf1 n r')
        · exact ⟨_, [], by simp, hbody1, Or.inl rfl⟩
        · rintro rfl
          exact absurd rfl c11
        · rintro e rfl
          rcases c9 e rfl with h | ⟨pre, MCI, evs0, ha, hb, hc, hd, hf⟩
          · left
            intro x hx
            rcases List.mem_cons.mp hx with rfl | hx
            · rfl
            · exact h x hx
          · right
            refine ⟨pre, MCI, Event.fetch s.TraceBuffer.length r.ret :: evs0, ha, hb,
              by rw [hc]; rfl, by rw [← hd]; simp [submitted], ?_⟩
            intro x hx
            rcases List.mem_cons.mp hx with rfl | hx
            · rfl
            · exact hf x hx
        · intro hne x hx
          rcases List.mem_cons.mp hx with rfl | hx
          · rfl
          · exact c10 (fun e he => hne e (by injection he)) x hx
      | none =>
        simp only
        obtain ⟨hd1, hs1, hnn1, hfr1, hpr1⟩ := c8 rfl
        have hnf1 : ∀ x ∈ Event.fetch s.TraceBuffer.length r.ret :: evs1,
            x.isBuildFailure = false := by
          intro x hx
          rcases List.mem_cons.mp hx with rfl | hx
          · rfl
          · exact c10 (by simp) x hx
        obtain ⟨done2, evs2, d1, d2, d3, d4, d6, d7, d8, d9, d10, d11⟩ := ih s1
        rw [c4] at d6 d9
        refine ⟨done1 ++ done2, Event.fetch s.TraceBuffer.length r.ret :: evs1 ++ evs2,
          by rw [d1, c1, List.append_assoc], by rw [d2, c2]; simp, ?_,
          by rw [d4, c4, brokerWrite_length], ?_, ?_, ?_, ?_, ?_, ?_⟩
        · rw [d3, c3, unfiltered_append, rendered_append]
          cases T <;> simp
        · rw [hd1]
          exact (List.prefix_append_right_inj _).mpr d6
        · intro n r' hm
          rcases List.mem_append.mp hm with hm | hm
          · rcases List.mem_cons.mp hm with hm | hm
            · injection hm with h1 h2
            · exact absurd hm (hf1 n r')
          · rw [d7 n r' hm, c4, brokerWrite_length]
        · obtain ⟨body, tail, e1, e2, e3⟩ := d8
          refine ⟨Event.fetch s.TraceBuffer.length r.ret :: evs1 ++ body, tail,
            by rw [e1]; simp, ?_, e3⟩
          intro x hx
          rcases List.mem_append.mp hx with hx | hx
          · exact hbody1 x hx
          · exact e2 x hx
        · intro hres
          obtain ⟨f1, f0, f2, f3, f4⟩ := d9 hres
          refine ⟨by rw [hd1, f1], ?_, ?_, ?_, ?_⟩
          · intro hm
            rcases List.mem_append.mp hm with hm | hm
            · exact hnn1 hm
            · exact f0 hm
          · rw [submitted_append, f2, unfiltered_append, ← hs1]
            simp [submitted]
          · unfold fetchReturns at hfr1 f3 ⊢
            rw [List.filterMap_append, f3, List.filterMap_cons, hfr1]
            simp
          · unfold pipelineRuns at hpr1 f4 ⊢
            rw [List.filterMap_append, List.length_append, f4, List.filterMap_cons]
            simp only [List.length_cons]
            omega
        · intro e he
          rcases d10 e he with h | ⟨pre, MCI, evs0, ha, hb, hc, hd, hf⟩
          · left
            intro x hx
            rcases List.mem_append.mp hx with hx | hx
            · exact hnf1 x hx
            · exact h x hx
          · right
            refine ⟨done1 ++ pre, MCI, Event.fetch s.TraceBuffer.length r.ret :: evs1 ++ evs0,
              by rw [ha, List.append_assoc], hb, by rw [hc]; simp, ?_, ?_⟩
            · rw [submitted_append, hd, unfiltered_append, hd1, ← hs1]
              simp [submitted]
            · intro x hx
              rcases List.mem_append.mp hx with hx | hx
              · exact hnf1 x hx
              · exact hf x hx
        · intro hne x hx
          rcases List.mem_append.mp hx with hx | hx
          · exact hnf1 x hx
          · exact d11 hne x hx

/-! ## The whole of `run` -/

theorem take_front_brokerWrite (w buf : List MCInstPtr) (h : w.length ≤ buf.length) :
    take_front (brokerWrite w buf) w.length = w := by
  rw [take_front_eq_take]
  unfold brokerWrite
  rw [List.take_take, min_eq_left h, List.take_left']
  rfl

/-- For a Broker that honours the contract of `fetch`, what the worker reads
from the buffer is what the Broker delivered. -/
theorem fetched_eq_delivered (cap : Nat) (B : List FetchResult) (hB : honoursContract cap B) :
    ∀ buf : List MCInstPtr, buf.length = cap → fetched buf B = delivered B := by
  induction B with
  | nil => intro buf _; rfl
  | cons r more ih =>
    intro buf hbuf
    by_cases hneg : r.ret < 0
    · simp [fetched, delivered, hneg]
    · obtain ⟨h1, h2⟩ := hB r (List.mem_cons_self _ _) (not_lt.mp hneg)
      have hmore : honoursContract cap more := fun x hx => hB x (List.mem_cons_of_mem _ hx)
      have h3 : r.ret.toNat = r.written.length := by rw [h1]; simp
      simp only [fetched, delivered, hneg, if_false]
      rw [h3, take_front_brokerWrite _ _ (by omega),
        ih hmore _ (by rw [brokerWrite_length]; exact hbuf)]

/-- The loop characterisation carried over to `run`: the buffer starts as
`MaxNumProcessedInst` null slots and the trace stream starts empty. -/
theorem run_post (C : Collaborators) (O : Options) (B : List FetchResult) (w : State) :
    LoopPost C O (traceOpen C O) (fetched (List.replicate O.MaxNumProcessedInst none) B)
      (answers B) (loopEntry O w) (run C O (some B) w).1 (run C O (some B) w).2 := by
  have h := whileLoop_post C O (traceOpen C O) B (loopEntry O w)
  simp only [run]
  generalize whileLoop C O (traceOpen C O) B (loopEntry O w) = wr at h ⊢
  obtain ⟨s1, res⟩ := wr
  cases res with
  | success =>
    obtain ⟨done, evs, h1, h2, h3, h4, h5, h6, h7, h8, h9, h10⟩ := h
    exact ⟨done, evs, h1, h2, h3, h4, h5, h6, h7, h8, h9, h10⟩
  | failure e => exact h
  | undefined => exact h

/-- The facts about `run` with a Broker set, spelled out. -/
theorem run_spec (C : Collaborators) (O : Options) (B : List FetchResult) (w : State) :
    ∃ (done : List MCInstPtr) (evs : List Event),
      (run C O (some B) w).1.TraceMIs = w.TraceMIs ++ done ∧
      (run C O (some B) w).1.events = w.events ++ evs ∧
      (run C O (some B) w).1.traceOut =
        (if traceOpen C O then rendered C (unfiltered C O done) else []) ∧
      (run C O (some B) w).1.TraceBuffer.length = O.MaxNumProcessedInst ∧
      done <+: fetched (List.replicate O.MaxNumProcessedInst none) B ∧
      (∀ n r, Event.fetch n r ∈ evs → n = O.MaxNumProcessedInst) ∧
      RunShape evs ∧
      ((run C O (some B) w).2 = RunResult.success →
        done = fetched (List.replicate O.MaxNumProcessedInst none) B ∧
        none ∉ fetched (List.replicate O.MaxNumProcessedInst none) B ∧
        submitted evs = unfiltered C O (fetched (List.replicate O.MaxNumProcessedInst none) B) ∧
        fetchReturns evs = answers B ∧ (pipelineRuns evs).length = (answers B).length) ∧
      (∀ e, (run C O (some B) w).2 = RunResult.failure e →
        (∀ x ∈ evs, x.isBuildFailure = false) ∨
        ∃ pre MCI evs0, done = pre ++ [some MCI] ∧ excluded C O MCI = false ∧
          evs = evs0 ++ [Event.createInstruction MCI (BuildResult.failed e)] ∧
          submitted evs0 = unfiltered C O pre ∧ ∀ x ∈ evs0, x.isBuildFailure = false) ∧
      ((∀ e, (run C O (some B) w).2 ≠ RunResult.failure e) →
        ∀ x ∈ evs, x.isBuildFailure = false) := by
  obtain ⟨done, evs, h1, h2, h3, h4, h5, h6, h7, h8, h9, h10⟩ := run_post C O B w
  refine ⟨done, evs, h1, h2, ?_, ?_, h5, ?_, h7, h8, h9, h10⟩
  · simpa [loopEntry] using h3
  · simpa [loopEntry] using h4
  · simpa [loopEntry] using h6

/-! ## The claims about `run` -/

theorem unfiltered_map_some (C : Collaborators) (O : Options) (insts : List MCInst) :
    unfiltered C O (insts.map some) = insts.filter (fun MCI => !excluded C O MCI) := by
  induction insts with
  | nil => rfl
  | cons a l ih =>
    rw [List.map_cons]
    cases h : excluded C O a
    · rw [unfiltered_keep C O a _ h, ih, List.filter_cons_of_pos (by simp [h])]
    · rw [unfiltered_skip C O a _ h, ih, List.filter_cons_of_neg (by simp [h])]

theorem eq_map_some_of_no_null (l : List MCInstPtr) (h : none ∉ l) :
    ∃ insts : List MCInst, l = insts.map some := by
  induction l with
  | nil => exact ⟨[], rfl⟩
  | cons p l ih =>
    obtain ⟨insts, hi⟩ := ih (fun hm => h (List.mem_cons_of_mem _ hm))
    cases p with
    | none => exact absurd (List.mem_cons_self _ _) h
    | some a => exact ⟨a :: insts, by rw [hi]; rfl⟩

/-- C1: when `run` returns success, the instructions submitted to the Source
Manager (by `addInst` or `addRecycledInst`, in call order) are the instructions
the worker read from the buffer over all fetches, in fetch order, with exactly
the excluded ones (returns, and calls unless they are included) removed; for a
Broker that honours the contract of `fetch` these are the delivered batches. -/
theorem submission_order (C : Collaborators) (O : Options) (B : List FetchResult) (w : State)
    (hok : (run C O (some B) w).2 = RunResult.success) :
    ∃ (evs : List Event) (insts : List MCInst),
      (run C O (some B) w).1.events = w.events ++ evs ∧
      fetched (List.replicate O.MaxNumProcessedInst none) B = insts.map some ∧
      submitted evs = insts.filter (fun MCI => !excluded C O MCI) ∧
      (honoursContract O.MaxNumProcessedInst B → delivered B = insts.map some) := by
  obtain ⟨done, evs, _, h2, _, _, _, _, _, h9, _, _⟩ := run_spec C O B w
  obtain ⟨_, hnn, hs, _, _⟩ := h9 hok
  obtain ⟨insts, hi⟩ := eq_map_some_of_no_null _ hnn
  refine ⟨evs, insts, h2, hi, by rw [hs, hi, unfiltered_map_some], ?_⟩
  intro hB
  rw [← hi, fetched_eq_delivered _ B hB _ (List.length_replicate _ _)]

theorem submission_order_witness :
    (run demoCollaborators ⟨false, false, 2⟩ (some scenarioB) newWorker).2 = RunResult.success ∧
    ∃ (evs : List Event) (insts : List MCInst),
      (run demoCollaborators ⟨false, false, 2⟩ (some scenarioB) newWorker).1.events
        = newWorker.events ++ evs ∧
      fetched (List.replicate 2 none) scenarioB = insts.map some ∧
      submitted evs = insts.filter (fun MCI => !excluded demoCollaborators ⟨false, false, 2⟩ MCI) ∧
      (honoursContract 2 scenarioB → delivered scenarioB = insts.map some) :=
  ⟨by decide,
    submission_order demoCollaborators ⟨false, false, 2⟩ scenarioB newWorker (by decide)⟩

/-- C7: every pointer the conversion loop reaches is appended to `TraceMIs`, in
fetch order, whether it is submitted or excluded; when `run` returns success
`TraceMIs` has grown by everything fetched (the delivered batches, for a Broker
that honours the contract of `fetch`) while only the instructions that are not
excluded were submitted.  In particular, when the fetched instructions are 1, 2
and 3, instruction 2 is a call, calls are not included and 1 and 3 are neither
calls nor returns, the Source Manager receives [1, 3] and `TraceMIs` grows by
[1, 2, 3]. -/
theorem retention_before_filter (C : Collaborators) (O : Options) (B : List FetchResult)
    (w : State) :
    ∃ (done : List MCInstPtr) (evs : List Event),
      (run C O (some B) w).1.TraceMIs = w.TraceMIs ++ done ∧
      (run C O (some B) w).1.events = w.events ++ evs ∧
      done <+: fetched (List.replicate O.MaxNumProcessedInst none) B ∧
      (honoursContract O.MaxNumProcessedInst B →
        fetched (List.replicate O.MaxNumProcessedInst none) B = delivered B) ∧
      ((run C O (some B) w).2 = RunResult.success →
        done = fetched (List.replicate O.MaxNumProcessedInst none) B ∧
        submitted evs = unfiltered C O (fetched (List.replicate O.MaxNumProcessedInst none) B) ∧
        ∀ i1 i2 i3 : MCInst,
          fetched (List.replicate O.MaxNumProcessedInst none) B
            = [some i1, some i2, some i3] →
          O.PreserveCallInst = false → (C.MCII i2.opcode).isCall = true →
          excluded C O i1 = false → excluded C O i3 = false →
          submitted evs = [i1, i3] ∧
          (run C O (some B) w).1.TraceMIs = w.TraceMIs ++ [some i1, some i2, some i3]) := by
  obtain ⟨done, evs, h1, h2, _, _, h5, _, _, h9, _, _⟩ := run_spec C O B w
  refine ⟨done, evs, h1, h2, h5,
    fun hB => fetched_eq_delivered _ B hB _ (List.length_replicate _ _), ?_⟩
  intro hok
  obtain ⟨hd, _, hs, _, _⟩ := h9 hok
  refine ⟨hd, hs, ?_⟩
  intro i1 i2 i3 hdel hO hcall h1x h3x
  have h2x : excluded C O i2 = true := by simp [excluded, hO, hcall]
  refine ⟨?_, by rw [h1, hd, hdel]⟩
  rw [hs, hdel, unfiltered_keep C O i1 _ h1x, unfiltered_skip C O i2 _ h2x,
    unfiltered_keep C O i3 _ h3x]
  rfl

theorem retention_before_filter_witness :
    (run demoCollaborators ⟨false, false, 3⟩ (some scenarioA) newWorker).2 = RunResult.success ∧
      fetched (List.replicate 3 none) scenarioA = [some (inst 1), some (inst 2), some (inst 3)] ∧
      submitted (run demoCollaborators ⟨false, false, 3⟩ (some scenarioA) newWorker).1.events
        = [inst 1, inst 3] ∧
      (run demoCollaborators ⟨false, false, 3⟩ (some scenarioA) newWorker).1.TraceMIs
        = [some (inst 1), some (inst 2), some (inst 3)] ∧
      ∃ (done : List MCInstPtr) (evs : List Event),
        (run demoCollaborators ⟨false, false, 3⟩ (some scenarioA) newWorker).1.TraceMIs
          = newWorker.TraceMIs ++ done ∧
        (run demoCollaborators ⟨false, false, 3⟩ (some scenarioA) newWorker).1.events
          = newWorker.events ++ evs ∧
        done <+: fetched (List.replicate 3 none) scenarioA :=
  ⟨by decide, by decide, by decide, by decide,
    (retention_before_filter demoCollaborators ⟨false, false, 3⟩ scenarioA newWorker).imp
      fun _ h => h.imp fun _ h => ⟨h.1, h.2.1, h.2.2.1⟩⟩

/-- When some builder call of a run failed, the run ended there. -/
theorem run_failure (C : Collaborators) (O : Options) (B : List FetchResult) (w : State)
    (done : List MCInstPtr) (evs : List Event)
    (hd : (run C O (some B) w).1.TraceMIs = w.TraceMIs ++ done)
    (he : (run C O (some B) w).1.events = w.events ++ evs)
    (hf : ∃ x ∈ evs, x.isBuildFailure = true) :
    ∃ pre MCI e evs0, (run C O (some B) w).2 = RunResult.failure e ∧
      done = pre ++ [some MCI] ∧ excluded C O MCI = false ∧
      evs = evs0 ++ [Event.createInstruction MCI (BuildResult.failed e)] ∧
      submitted evs0 = unfiltered C O pre ∧ (∀ x ∈ evs0, x.isBuildFailure = false) ∧
      pre ++ [some MCI] <+: fetched (List.replicate O.MaxNumProcessedInst none) B := by
  obtain ⟨done1, evs1, h1, h2, _, _, h5, _, _, _, h10, h11⟩ := run_spec C O B w
  have e1 : done1 = done := List.append_cancel_left (h1.symm.trans hd)
  have e2 : evs1 = evs := List.append_cancel_left (h2.symm.trans he)
  subst e1 e2
  obtain ⟨x, hx, hxf⟩ := hf
  have hres : ∃ e, (run C O (some B) w).2 = RunResult.failure e := by
    by_contra hno
    have := h11 (fun e he => hno ⟨e, he⟩) x hx
    rw [this] at hxf
    cases hxf
  obtain ⟨e, hres⟩ := hres
  rcases h10 e hres with h | ⟨pre, MCI, evs0, ha, hb, hc, hd', hf'⟩
  · rw [h x hx] at hxf
    cases hxf
  · exact ⟨pre, MCI, e, evs0, hres, ha, hb, hc, hd', hf', by rw [← ha]; exact h5⟩

/-- C8: when a builder call of a run fails with an error other than the recycle
signal, `run` returns that error and the failing call is the last call of the
run (no fetch, `endOfStream`, submission or pipeline run follows it); the
instructions submitted are exactly the ones that are not excluded among those
preceding the failing instruction in fetch order, and the failing instruction
and the later ones are not submitted.  Fetch order is the order of the
delivered batches when the Broker honours the contract of `fetch`. -/
theorem build_failure_aborts (C : Collaborators) (O : Options) (B : List FetchResult)
    (w : State) (evs : List Event)
    (he : (run C O (some B) w).1.events = w.events ++ evs)
    (hf : ∃ x ∈ evs, x.isBuildFailure = true) :
    ∃ (pre post : List MCInstPtr) (MCI : MCInst) (e : Err) (evs0 : List Event),
      fetched (List.replicate O.MaxNumProcessedInst none) B = pre ++ some MCI :: post ∧
      (honoursContract O.MaxNumProcessedInst B → delivered B = pre ++ some MCI :: post) ∧
      excluded C O MCI = false ∧
      (run C O (some B) w).2 = RunResult.failure e ∧
      evs = evs0 ++ [Event.createInstruction MCI (BuildResult.failed e)] ∧
      (∀ x ∈ evs0, x.isBuildFailure = false) ∧
      submitted evs0 = unfiltered C O pre ∧
      submitted evs = unfiltered C O pre ∧
      (run C O (some B) w).1.TraceMIs = w.TraceMIs ++ pre ++ [some MCI] := by
  obtain ⟨done, evs1, h1, h2, _⟩ := run_spec C O B w
  have e2 : evs1 = evs := List.append_cancel_left (h2.symm.trans he)
  subst e2
  obtain ⟨pre, MCI, e, evs0, g1, g2, g3, g4, g5, g6, g7⟩ := run_failure C O B w done evs1 h1 he hf
  obtain ⟨post, hpost⟩ := g7
  have hin : fetched (List.replicate O.MaxNumProcessedInst none) B = pre ++ some MCI :: post := by
    rw [← hpost]; simp
  refine ⟨pre, post, MCI, e, evs0, hin, ?_, g3, g1, g4, g6, g5, ?_, ?_⟩
  · intro hB
    rw [← hin, fetched_eq_delivered _ B hB _ (List.length_replicate _ _)]
  · rw [g4, submitted_append, g5]
    simp [submitted]
  · rw [h1, g2, List.append_assoc]

theorem build_failure_aborts_witness :
    ((run failingCollaborators ⟨false, false, 2⟩ (some scenarioB) newWorker).1.events =
        newWorker.events ++
          [Event.fetch 2 2, Event.createInstruction (inst 1) (BuildResult.built 100),
            Event.addInst (inst 1) 100, Event.pipelineRun (PipelineResult.cycles 0),
            Event.fetch 2 2,
            Event.createInstruction (inst 3) (BuildResult.failed "unsupported")]) ∧
    ∃ (pre post : List MCInstPtr) (MCI : MCInst) (e : Err) (evs0 : List Event),
      fetched (List.replicate 2 none) scenarioB = pre ++ some MCI :: post ∧
      (honoursContract 2 scenarioB → delivered scenarioB = pre ++ some MCI :: post) ∧
      excluded failingCollaborators ⟨false, false, 2⟩ MCI = false ∧
      (run failingCollaborators ⟨false, false, 2⟩ (some scenarioB) newWorker).2
        = RunResult.failure e ∧
      [Event.fetch 2 2, Event.createInstruction (inst 1) (BuildResult.built 100),
        Event.addInst (inst 1) 100, Event.pipelineRun (PipelineResult.cycles 0),
        Event.fetch 2 2, Event.createInstruction (inst 3) (BuildResult.failed "unsupported")]
        = evs0 ++ [Event.createInstruction MCI (BuildResult.failed e)] ∧
      (∀ x ∈ evs0, x.isBuildFailure = false) ∧
      submitted evs0 = unfiltered failingCollaborators ⟨false, false, 2⟩ pre ∧
      submitted [Event.fetch 2 2, Event.createInstruction (inst 1) (BuildResult.built 100),
        Event.addInst (inst 1) 100, Event.pipelineRun (PipelineResult.cycles 0),
        Event.fetch 2 2, Event.createInstruction (inst 3) (BuildResult.failed "unsupported")]
        = unfiltered failingCollaborators ⟨false, false, 2⟩ pre ∧
      (run failingCollaborators ⟨false, false, 2⟩ (some scenarioB) newWorker).1.TraceMIs
        = newWorker.TraceMIs ++ pre ++ [some MCI] :=
  ⟨by decide,
    build_failure_aborts failingCollaborators ⟨false, false, 2⟩ scenarioB newWorker _
      (by decide)
      ⟨Event.createInstruction (inst 3) (BuildResult.failed "unsupported"), by simp, rfl⟩⟩

/-- C10: with the trace stream open, the lines `run` writes are, in order, one
rendering for each pointer appended to `TraceMIs` (the fetched pointers the
loop reached, all of them when `run` returns success) that is an instruction
and is not excluded; nothing is written for a return or an excluded call; the
instruction whose construction fails does get its line (the last one).  The
lines are never more than the pointers retained, and can be strictly fewer
(scenario A: two lines, three retained instructions). -/
theorem trace_lines_filtered (C : Collaborators) (O : Options) (B : List FetchResult)
    (w : State) (hopen : traceOpen C O = true) :
    (∃ (done : List MCInstPtr) (evs : List Event),
      (run C O (some B) w).1.TraceMIs = w.TraceMIs ++ done ∧
      (run C O (some B) w).1.events = w.events ++ evs ∧
      (run C O (some B) w).1.traceOut = rendered C (unfiltered C O done) ∧
      (run C O (some B) w).1.traceOut.length ≤ done.length ∧
      done <+: fetched (List.replicate O.MaxNumProcessedInst none) B ∧
      ((run C O (some B) w).2 = RunResult.success →
        done = fetched (List.replicate O.MaxNumProcessedInst none) B) ∧
      ∀ MCI e, Event.createInstruction MCI (BuildResult.failed e) ∈ evs →
        (run C O (some B) w).1.traceOut.getLast? = some (C.printInst MCI ++ "\n")) ∧
    (run demoCollaborators ⟨true, false, 3⟩ (some scenarioA) newWorker).1.traceOut.length <
      (run demoCollaborators ⟨true, false, 3⟩ (some scenarioA) newWorker).1.TraceMIs.length := by
  refine ⟨?_, by decide⟩
  obtain ⟨done, evs, h1, h2, h3, _, h5, _, _, h9, _⟩ := run_spec C O B w
  rw [hopen] at h3
  simp only [if_true] at h3
  refine ⟨done, evs, h1, h2, h3, ?_, h5, fun hok => (h9 hok).1, ?_⟩
  · rw [h3]
    simp only [rendered, unfiltered, List.length_map]
    exact List.length_filterMap_le _ _
  · intro MCI e hm
    obtain ⟨pre, MCI1, e1, evs0, _, g2, g3, g4, _, g6, _⟩ :=
      run_failure C O B w done evs h1 h2 ⟨_, hm, rfl⟩
    rw [g4] at hm
    rcases List.mem_append.mp hm with hm | hm
    · have := g6 _ hm
      cases this
    · simp only [List.mem_singleton, Event.createInstruction.injEq] at hm
      obtain ⟨rfl, _⟩ := hm
      rw [h3, g2, unfiltered_append, unfiltered_keep C O MCI [] g3, rendered_append]
      simp [rendered]

theorem trace_lines_filtered_witness :
    traceOpen demoCollaborators ⟨true, false, 3⟩ = true ∧
      (run demoCollaborators ⟨true, false, 3⟩ (some scenarioA) newWorker).1.traceOut
        = ["1\n", "3\n"] ∧
      ∃ (done : List MCInstPtr) (evs : List Event),
        (run demoCollaborators ⟨true, false, 3⟩ (some scenarioA) newWorker).1.TraceMIs
          = newWorker.TraceMIs ++ done ∧
        (run demoCollaborators ⟨true, false, 3⟩ (some scenarioA) newWorker).1.events
          = newWorker.events ++ evs ∧
        (run demoCollaborators ⟨true, false, 3⟩ (some scenarioA) newWorker).1.traceOut
          = rendered demoCollaborators (unfiltered demoCollaborators ⟨true, false, 3⟩ done) :=
  ⟨by decide, by decide,
    (trace_lines_filtered demoCollaborators ⟨true, false, 3⟩ scenarioA newWorker
      (by decide)).1.imp fun _ h => h.imp fun _ h => ⟨h.1, h.2.1, h.2.2.1⟩⟩

theorem split_in_tail (p : Event → Prop) (body tail pre post : List Event) (x : Event)
    (h : body ++ tail = pre ++ x :: post) (hb : ∀ y ∈ body, ¬ p y) (hx : p x) :
    ∃ pre1, tail = pre1 ++ x :: post := by
  rcases List.append_eq_append_iff.mp h with ⟨a1, _, h2⟩ | ⟨c1, h1, h2⟩
  · exact ⟨a1, h2⟩
  · cases c1 with
    | nil => exact ⟨[], by simpa using h2.symm⟩
    | cons c cs =>
      simp only [List.cons_append, List.cons.injEq] at h2
      obtain ⟨rfl, _⟩ := h2
      exact absurd hx (hb x (by rw [h1]; simp))

/-- C2: in a run with a Broker set, no `fetch` call follows a `fetch` that
returned a negative value; `endOfStream` is called exactly once when some
`fetch` returned a negative value and not at all otherwise; and no `addInst` or
`addRecycledInst` call follows `endOfStream`. -/
theorem end_of_stream_once (C : Collaborators) (O : Options) (B : List FetchResult)
    (w : State) :
    ∃ evs : List Event, (run C O (some B) w).1.events = w.events ++ evs ∧
      (∀ pre post n ret, evs = pre ++ Event.fetch n ret :: post → ret < 0 →
        ∀ x ∈ post, x.isFetch = false) ∧
      ((∃ x ∈ evs, x.isExhausted = true) → evs.count Event.endOfStream = 1) ∧
      ((∀ x ∈ evs, x.isExhausted = false) → evs.count Event.endOfStream = 0) ∧
      (∀ pre post, evs = pre ++ Event.endOfStream :: post →
        ∀ x ∈ post, x.isSubmit = false) := by
  obtain ⟨done, evs, _, h2, _, _, _, _, ⟨body, tail, hev, hb, ht⟩, _⟩ := run_spec C O B w
  refine ⟨evs, h2, ?_⟩
  have hbe : ∀ y ∈ body, ¬ (y.isExhausted = true) := fun y hy h => by
    rw [(hb y hy).2.1] at h; cases h
  have hbs : ∀ y ∈ body, ¬ (y = Event.endOfStream) := fun y hy => (hb y hy).1
  have hcb : body.count Event.endOfStream = 0 :=
    List.count_eq_zero.mpr (fun hm => hbs _ hm rfl)
  rcases ht with rfl | ⟨n0, ret0, r0, hneg0, rfl⟩
  · simp only [List.append_nil] at hev
    subst hev
    refine ⟨?_, ?_, fun _ => hcb, ?_⟩
    · intro pre post n ret he hneg
      exact absurd (by simp [Event.isExhausted, hneg]) (hbe (Event.fetch n ret) (by rw [he]; simp))
    · rintro ⟨x, hx, hxe⟩
      exact absurd hxe (hbe x hx)
    · intro pre post he
      exact absurd rfl (hbs Event.endOfStream (by rw [he]; simp))
  · subst hev
    refine ⟨?_, ?_, ?_, ?_⟩
    · intro pre post n ret he hneg
      obtain ⟨pre1, hp⟩ := split_in_tail (fun y => y.isExhausted = true) _ _ _ _ _ he hbe
        (by simp [Event.isExhausted, hneg])
      rcases pre1 with _ | ⟨a, _ | ⟨b, _ | ⟨c, l⟩⟩⟩ <;> simp at hp
      obtain ⟨_, rfl⟩ := hp
      intro x hx
      simp only [List.mem_cons, List.mem_singleton, List.not_mem_nil, or_false] at hx
      rcases hx with rfl | rfl <;> rfl
    · intro _
      rw [List.count_append, hcb]
      simp [List.count_cons]
    · intro hall
      have := hall (Event.fetch n0 ret0) (by simp)
      simp [Event.isExhausted, hneg0] at this
    · intro pre post he
      obtain ⟨pre1, hp⟩ := split_in_tail (fun y => y = Event.endOfStream) _ _ _ _ _ he hbs rfl
      rcases pre1 with _ | ⟨a, _ | ⟨b, _ | ⟨c, l⟩⟩⟩ <;> simp at hp
      obtain ⟨_, rfl⟩ := hp
      intro x hx
      simp only [List.mem_singleton] at hx
      subst hx
      rfl

theorem end_of_stream_once_witness :
    ∃ evs : List Event,
      (run demoCollaborators ⟨false, false, 2⟩ (some scenarioB) newWorker).1.events
        = newWorker.events ++ evs ∧
      ((∃ x ∈ evs, x.isExhausted = true) → evs.count Event.endOfStream = 1) :=
  (end_of_stream_once demoCollaborators ⟨false, false, 2⟩ scenarioB newWorker).imp
    fun _ h => ⟨h.1, h.2.2.1⟩

/-- C3 as stated fails: with a buffer of two slots and five instructions
delivered in full batches, the successful run makes four `fetch` calls and four
pipeline runs, not three. -/
theorem scenarioB_not_three :
    (run demoCollaborators ⟨false, false, 2⟩ (some scenarioB) newWorker).2 = RunResult.success ∧
      ¬ (fetchReturns (run demoCollaborators ⟨false, false, 2⟩ (some scenarioB) newWorker).1.events
          = [2, 2, 1] ∧
        (pipelineRuns
          (run demoCollaborators ⟨false, false, 2⟩ (some scenarioB) newWorker).1.events).length
          = 3) := by
  decide

/-- C3, amended: with a buffer of two slots and a Broker that delivers five
instructions in full batches and then reports exhaustion, a successful run makes
exactly four `fetch` calls, returning 2, 2, 1 and the negative exhaustion value,
and exactly four pipeline runs. -/
theorem scenarioB_four_fetches (C : Collaborators) (TraceMCI PreserveCallInst : Bool)
    (w : State) (a b c d e : MCInstPtr) (last : FetchResult) (hlast : last.ret < 0)
    (hok : (run C ⟨TraceMCI, PreserveCallInst, 2⟩
      (some [⟨2, [a, b]⟩, ⟨2, [c, d]⟩, ⟨1, [e]⟩, last]) w).2 = RunResult.success) :
    ∃ evs : List Event,
      (run C ⟨TraceMCI, PreserveCallInst, 2⟩
        (some [⟨2, [a, b]⟩, ⟨2, [c, d]⟩, ⟨1, [e]⟩, last]) w).1.events = w.events ++ evs ∧
      fetchReturns evs = [2, 2, 1, last.ret] ∧ (pipelineRuns evs).length = 4 := by
  obtain ⟨done, evs, _, h2, _, _, _, _, _, h9, _⟩ := run_spec C ⟨TraceMCI, PreserveCallInst, 2⟩
    [⟨2, [a, b]⟩, ⟨2, [c, d]⟩, ⟨1, [e]⟩, last] w
  obtain ⟨_, _, _, h3, h4⟩ := h9 hok
  refine ⟨evs, h2, ?_, ?_⟩
  · rw [h3]; simp [answers, hlast]
  · rw [h4]; simp [answers, hlast]

theorem scenarioB_four_fetches_witness :
    ((-1 : Int) < 0 ∧
      (run demoCollaborators ⟨false, false, 2⟩ (some scenarioB) newWorker).2
        = RunResult.success) ∧
    ∃ evs : List Event,
      (run demoCollaborators ⟨false, false, 2⟩ (some scenarioB) newWorker).1.events
        = newWorker.events ++ evs ∧
      fetchReturns evs = [2, 2, 1, -1] ∧ (pipelineRuns evs).length = 4 :=
  ⟨⟨by decide, by decide⟩,
    scenarioB_four_fetches demoCollaborators false false newWorker (some (inst 1))
      (some (inst 2)) (some (inst 3)) (some (inst 4)) (some (inst 5)) ⟨-1, []⟩
      (by decide) (by decide)⟩

theorem whileLoop_from_head (C : Collaborators) (O : Options) (T : Bool)
    (pre : List FetchResult) :
    ∀ s s1 : State, loopHead C O T pre s = some s1 →
      ∀ post, whileLoop C O T (pre ++ post) s = whileLoop C O T post s1 := by
  induction pre with
  | nil =>
    intro s s1 h post
    simp only [loopHead, Option.some.injEq] at h
    subst h
    rfl
  | cons r more ih =>
    intro s s1 h post
    by_cases hneg : r.ret < 0
    · simp [loopHead, hneg] at h
    · simp only [loopHead, hneg, if_false] at h
      simp only [List.cons_append, whileLoop, hneg, if_false]
      generalize chunk C O T r.ret.toNat (fetch r s) = cr at h ⊢
      obtain ⟨t, res⟩ := cr
      cases res with
      | none => exact ih t s1 h post
      | some x => simp at h

theorem loopHead_buffer (C : Collaborators) (O : Options) (T : Bool)
    (pre : List FetchResult) :
    ∀ s s1 : State, loopHead C O T pre s = some s1 →
      s1.TraceBuffer.length = s.TraceBuffer.length := by
  induction pre with
  | nil =>
    intro s s1 h
    simp only [loopHead, Option.some.injEq] at h
    subst h
    rfl
  | cons r more ih =>
    intro s s1 h
    by_cases hneg : r.ret < 0
    · simp [loopHead, hneg] at h
    · simp only [loopHead, hneg, if_false] at h
      obtain ⟨_, _, _, _, _, c4, _⟩ := chunk_spec C O T r.ret.toNat (fetch r s)
      generalize chunk C O T r.ret.toNat (fetch r s) = cr at h c4
      obtain ⟨t, res⟩ := cr
      cases res with
      | none =>
        rw [ih t s1 h]
        simp only at c4
        rw [c4]
        simp [fetch, brokerWrite_length]
      | some x => simp at h

/-- C9: every `fetch` call of a run is handed a buffer of exactly
`MaxNumProcessedInst` slots and the buffer still has that size when `run`
ends.  At the head of every iteration the loop reaches (after any number `pre`
of the Broker's fetches) the buffer has exactly `MaxNumProcessedInst` slots,
and whatever the next `fetch` returns: the buffer keeps that size, the slice
`TraceBufferSlice` has at most `MaxNumProcessedInst` elements (and at most
`Len`), converting it leaves the size of the buffer alone and appends at most
`MaxNumProcessedInst` pointers to `TraceMIs`, and the iteration of a negative
return processes nothing. -/
theorem chunk_buffer_bounded (C : Collaborators) (O : Options) (B : List FetchResult)
    (w : State) :
    (∃ evs : List Event, (run C O (some B) w).1.events = w.events ++ evs ∧
      ∀ n r, Event.fetch n r ∈ evs → n = O.MaxNumProcessedInst) ∧
    (run C O (some B) w).1.TraceBuffer.length = O.MaxNumProcessedInst ∧
    ∀ (pre post : List FetchResult) (s : State), B = pre ++ post →
      loopHead C O (traceOpen C O) pre (loopEntry O w) = some s →
      whileLoop C O (traceOpen C O) B (loopEntry O w)
        = whileLoop C O (traceOpen C O) post s ∧
      s.TraceBuffer.length = O.MaxNumProcessedInst ∧
      ∀ r : FetchResult,
        (fetch r s).TraceBuffer.length = O.MaxNumProcessedInst ∧
        (∀ Len : Nat,
          (take_front (fetch r s).TraceBuffer Len).length ≤ O.MaxNumProcessedInst ∧
          (take_front (fetch r s).TraceBuffer Len).length ≤ Len ∧
          (chunk C O (traceOpen C O) Len (fetch r s)).1.TraceBuffer.length
            = O.MaxNumProcessedInst ∧
          (chunk C O (traceOpen C O) Len (fetch r s)).1.TraceMIs.length
            ≤ s.TraceMIs.length + O.MaxNumProcessedInst) ∧
        (lastIteration C O (traceOpen C O) r s).1.TraceMIs = s.TraceMIs ∧
        (lastIteration C O (traceOpen C O) r s).1.TraceBuffer.length
          = O.MaxNumProcessedInst := by
  obtain ⟨done, evs, _, h2, _, h4, _, h6, _⟩ := run_spec C O B w
  refine ⟨⟨evs, h2, h6⟩, h4, ?_⟩
  intro pre post s hB hhead
  have hcap : s.TraceBuffer.length = O.MaxNumProcessedInst := by
    rw [loopHead_buffer C O _ pre _ s hhead]
    simp [loopEntry]
  refine ⟨by rw [hB]; exact whileLoop_from_head C O _ pre _ s hhead post, hcap, ?_⟩
  intro r
  have hlen : (fetch r s).TraceBuffer.length = O.MaxNumProcessedInst := by
    simp [fetch, brokerWrite_length, hcap]
  refine ⟨hlen, ?_, ?_, ?_⟩
  · intro Len
    obtain ⟨done1, evs1, c1, _, _, c4, _, c6, _⟩ :=
      chunk_spec C O (traceOpen C O) Len (fetch r s)
    have hs : (take_front (fetch r s).TraceBuffer Len).length ≤ O.MaxNumProcessedInst := by
      rw [take_front_eq_take, List.length_take, hlen]
      exact Nat.min_le_right _ _
    refine ⟨hs, ?_, by rw [c4, hlen], ?_⟩
    · rw [take_front_eq_take, List.length_take]
      exact Nat.min_le_left _ _
    · rw [c1, List.length_append]
      have := c6.length_le
      simp only [fetch] at this hs ⊢
      omega
  · rw [lastIteration_eq]
  · rw [lastIteration_eq]
    simp [brokerWrite_length, hcap]

theorem chunk_buffer_bounded_witness :
    (run demoCollaborators ⟨false, false, 2⟩ (some scenarioB) newWorker).1.TraceBuffer.length = 2 ∧
      (loopHead demoCollaborators ⟨false, false, 2⟩ false (scenarioB.take 2)
          (loopEntry ⟨false, false, 2⟩ newWorker)).isSome = true ∧
      ∀ s : State, loopHead demoCollaborators ⟨false, false, 2⟩
          (traceOpen demoCollaborators ⟨false, false, 2⟩) (scenarioB.take 2)
          (loopEntry ⟨false, false, 2⟩ newWorker) = some s →
        s.TraceBuffer.length = 2 :=
  ⟨(chunk_buffer_bounded demoCollaborators ⟨false, false, 2⟩ scenarioB newWorker).2.1,
    by decide,
    fun s h =>
      ((chunk_buffer_bounded demoCollaborators ⟨false, false, 2⟩ scenarioB newWorker).2.2
        (scenarioB.take 2) (scenarioB.drop 2) s (by decide) h).2.1⟩

/-! ## Pause transparency -/

theorem excluded_congr (C1 C2 : Collaborators) (O : Options) (hM : C1.MCII = C2.MCII)
    (MCI : MCInst) : excluded C1 O MCI = excluded C2 O MCI := by
  simp [excluded, hM]

/-- The conversion loop does not look at the pipeline. -/
theorem convertLoop_rel (C1 C2 : Collaborators) (O : Options) (T : Bool)
    (hM : C1.MCII = C2.MCII) (hI : C1.createInstruction = C2.createInstruction)
    (hP : C1.printInst = C2.printInst) (l : List MCInstPtr) :
    ∀ s1 s2 : State, SameButPipeline s1 s2 →
      SameButPipeline (convertLoop C1 O T l s1).1 (convertLoop C2 O T l s2).1 ∧
        (convertLoop C1 O T l s1).2 = (convertLoop C2 O T l s2).2 := by
  induction l with
  | nil => intro s1 s2 h; exact ⟨by simpa [convertLoop] using h, rfl⟩
  | cons p rest ih =>
    intro s1 s2 h
    obtain ⟨h1, h2, h3, h4, h5, h6⟩ := h
    cases p with
    | none =>
      rw [convertLoop_null, convertLoop_null]
      exact ⟨⟨h1, by simp [h2], h3, h4, h5, h6⟩, rfl⟩
    | some MCI =>
      by_cases hx : excluded C1 O MCI = true
      · rw [convertLoop_skip C1 O T MCI rest s1 hx,
          convertLoop_skip C2 O T MCI rest s2 (by rw [← excluded_congr C1 C2 O hM]; exact hx)]
        exact ih _ _ ⟨h1, by simp [h2], h3, h4, h5, h6⟩
      · simp only [Bool.not_eq_true] at hx
        rw [convertLoop_keep C1 O T MCI rest s1 hx,
          convertLoop_keep C2 O T MCI rest s2 (by rw [← excluded_congr C1 C2 O hM]; exact hx)]
        rw [← hI, ← hP, ← h5]
        cases hb : C1.createInstruction s1.numCreate MCI with
        | failed e =>
          exact ⟨⟨h1, by simp [h2], by simp [h3], by simp [h4], by simp [h5], h6⟩, rfl⟩
        | recycled I =>
          cases I with
          | none =>
            exact ⟨⟨h1, by simp [h2], by simp [h3], by simp [h4], by simp [h5], h6⟩, rfl⟩
          | some I =>
            exact ih _ _ ⟨h1, by simp [h2], by simp [h3], by simp [h4], by simp [h5], h6⟩
        | built I =>
          exact ih _ _ ⟨h1, by simp [h2], by simp [h3], by simp [h4], by simp [h5], h6⟩

theorem chunk_rel (C1 C2 : Collaborators) (O : Options) (T : Bool)
    (hM : C1.MCII = C2.MCII) (hI : C1.createInstruction = C2.createInstruction)
    (hP : C1.printInst = C2.printInst)
    (hF1 : ∀ n e, C1.pipelineRun n ≠ PipelineResult.fatal e)
    (hF2 : ∀ n e, C2.pipelineRun n ≠ PipelineResult.fatal e)
    (Len : Nat) (s1 s2 : State) (h : SameButPipeline s1 s2) :
    SameButPipeline (chunk C1 O T Len s1).1 (chunk C2 O T Len s2).1 ∧
      (chunk C1 O T Len s1).2 = (chunk C2 O T Len s2).2 := by
  have hc := convertLoop_rel C1 C2 O T hM hI hP (take_front s1.TraceBuffer Len) s1 s2 h
  simp only [chunk]
  rw [← h.1]
  generalize convertLoop C1 O T (take_front s1.TraceBuffer Len) s1 = cr1 at hc ⊢
  generalize convertLoop C2 O T (take_front s1.TraceBuffer Len) s2 = cr2 at hc ⊢
  obtain ⟨t1, r1⟩ := cr1
  obtain ⟨t2, r2⟩ := cr2
  obtain ⟨⟨g1, g2, g3, g4, g5, g6⟩, hr⟩ := hc
  simp only at g1 g2 g3 g4 g5 g6 hr
  subst hr
  cases r1 with
  | some r => exact ⟨⟨g1, g2, g3, g4, g5, g6⟩, rfl⟩
  | none =>
    simp only
    have p1 : runPipeline C1 t1 = ((runPipeline C1 t1).1, (runPipeline C1 t1).2) := rfl
    have p2 : runPipeline C2 t2 = ((runPipeline C2 t2).1, (runPipeline C2 t2).2) := rfl
    have q1 : (runPipeline C1 t1).2 = none := by
      rw [runPipeline_snd]
      cases hq : C1.pipelineRun t1.numRun with
      | fatal e => exact absurd hq (hF1 _ _)
      | cycles n => rfl
      | pause => rfl
    have q2 : (runPipeline C2 t2).2 = none := by
      rw [runPipeline_snd]
      cases hq : C2.pipelineRun t2.numRun with
      | fatal e => exact absurd hq (hF2 _ _)
      | cycles n => rfl
      | pause => rfl
    rw [p1, p2, q1, q2, runPipeline_fst, runPipeline_fst]
    exact ⟨⟨g1, g2, by simp [g3, Event.blank], g4, g5, g6⟩, rfl⟩

theorem lastIteration_rel (C1 C2 : Collaborators) (O : Options) (T : Bool)
    (hF1 : ∀ n e, C1.pipelineRun n ≠ PipelineResult.fatal e)
    (hF2 : ∀ n e, C2.pipelineRun n ≠ PipelineResult.fatal e)
    (r : FetchResult) (s1 s2 : State) (h : SameButPipeline s1 s2) :
    SameButPipeline (lastIteration C1 O T r s1).1 (lastIteration C2 O T r s2).1 ∧
      (lastIteration C1 O T r s1).2 = (lastIteration C2 O T r s2).2 := by
  obtain ⟨h1, h2, h3, h4, h5, h6⟩ := h
  rw [lastIteration_eq, lastIteration_eq]
  refine ⟨⟨by simp [h1], h2, by simp [h3, h1, Event.blank], h4, h5, h6⟩, ?_⟩
  cases hq1 : C1.pipelineRun s1.numRun with
  | fatal e => exact absurd hq1 (hF1 _ _)
  | cycles n =>
    cases hq2 : C2.pipelineRun s2.numRun with
    | fatal e => exact absurd hq2 (hF2 _ _)
    | cycles n => rfl
    | pause => rfl
  | pause =>
    cases hq2 : C2.pipelineRun s2.numRun with
    | fatal e => exact absurd hq2 (hF2 _ _)
    | cycles n => rfl
    | pause => rfl

theorem whileLoop_rel (C1 C2 : Collaborators) (O : Options) (T : Bool)
    (hM : C1.MCII = C2.MCII) (hI : C1.createInstruction = C2.createInstruction)
    (hP : C1.printInst = C2.printInst)
    (hF1 : ∀ n e, C1.pipelineRun n ≠ PipelineResult.fatal e)
    (hF2 : ∀ n e, C2.pipelineRun n ≠ PipelineResult.fatal e) (B : List FetchResult) :
    ∀ s1 s2 : State, SameButPipeline s1 s2 →
      SameButPipeline (whileLoop C1 O T B s1).1 (whileLoop C2 O T B s2).1 ∧
        (whileLoop C1 O T B s1).2 = (whileLoop C2 O T B s2).2 := by
  induction B with
  | nil =>
    intro s1 s2 h
    simpa [whileLoop] using lastIteration_rel C1 C2 O T hF1 hF2 _ s1 s2 h
  | cons r more ih =>
    intro s1 s2 h
    by_cases hneg : r.ret < 0
    · simpa [whileLoop, hneg] using lastIteration_rel C1 C2 O T hF1 hF2 r s1 s2 h
    · have hf : SameButPipeline (fetch r s1) (fetch r s2) := by
        obtain ⟨h1, h2, h3, h4, h5, h6⟩ := h
        exact ⟨by simp [fetch, h1], h2, by simp [fetch, h3, h1, Event.blank], h4, h5, h6⟩
      have hc := chunk_rel C1 C2 O T hM hI hP hF1 hF2 r.ret.toNat _ _ hf
      simp only [whileLoop, hneg, if_false]
      generalize chunk C1 O T r.ret.toNat (fetch r s1) = cr1 at hc ⊢
      generalize chunk C2 O T r.ret.toNat (fetch r s2) = cr2 at hc ⊢
      obtain ⟨t1, r1⟩ := cr1
      obtain ⟨t2, r2⟩ := cr2
      obtain ⟨hs, hr⟩ := hc
      simp only at hs hr
      subst hr
      cases r1 with
      | some res => exact ⟨hs, rfl⟩
      | none => exact ih t1 t2 hs

theorem run_rel (C1 C2 : Collaborators) (O : Options)
    (hM : C1.MCII = C2.MCII) (hI : C1.createInstruction = C2.createInstruction)
    (hP : C1.printInst = C2.printInst) (hE : C1.EC = C2.EC)
    (hF1 : ∀ n e, C1.pipelineRun n ≠ PipelineResult.fatal e)
    (hF2 : ∀ n e, C2.pipelineRun n ≠ PipelineResult.fatal e) (B : List FetchResult)
    (w : State) :
    SameButPipeline (run C1 O (some B) w).1 (run C2 O (some B) w).1 ∧
      (run C1 O (some B) w).2 = (run C2 O (some B) w).2 := by
  have hT : traceOpen C1 O = traceOpen C2 O := by simp [traceOpen, hE]
  have hw := whileLoop_rel C1 C2 O (traceOpen C1 O) hM hI hP hF1 hF2 B
    (loopEntry O w) (loopEntry O w) ⟨rfl, rfl, rfl, rfl, rfl, rfl⟩
  simp only [run]
  rw [← hT]
  generalize whileLoop C1 O (traceOpen C1 O) B (loopEntry O w) = wr1 at hw ⊢
  generalize whileLoop C2 O (traceOpen C1 O) B (loopEntry O w) = wr2 at hw ⊢
  obtain ⟨t1, r1⟩ := wr1
  obtain ⟨t2, r2⟩ := wr2
  obtain ⟨⟨g1, g2, g3, g4, g5, g6⟩, hr⟩ := hw
  simp only at g1 g2 g3 g4 g5 g6 hr
  subst hr
  cases r1 with
  | success => exact ⟨⟨g1, g2, g3, g4, g5, rfl⟩, rfl⟩
  | failure e => exact ⟨⟨g1, g2, g3, g4, g5, g6⟩, rfl⟩
  | undefined => exact ⟨⟨g1, g2, g3, g4, g5, g6⟩, rfl⟩

theorem fetchReturns_blank (evs : List Event) :
    fetchReturns (evs.map Event.blank) = fetchReturns evs := by
  induction evs with
  | nil => rfl
  | cons x l ih =>
    simp only [fetchReturns, List.map_cons, List.filterMap_cons] at ih ⊢
    cases x <;> simp [Event.blank, ih]

theorem submitted_blank (evs : List Event) :
    submitted (evs.map Event.blank) = submitted evs := by
  induction evs with
  | nil => rfl
  | cons x l ih =>
    simp only [submitted, List.map_cons, List.filterMap_cons] at ih ⊢
    cases x <;> simp [Event.blank, ih]

/-- C6: a run whose pipeline answers `InstStreamPause` to its first `K` calls and
a cycle count afterwards ends with the same result as a run whose pipeline
never pauses, with the same `fetch` calls, the same submissions to the Source
Manager, the same `TraceMIs` and the same trace lines (the calls of the two
runs differ only in the results of the pipeline runs); and `runPipeline`
returns success whenever the pipeline gives a cycle count or a pause. -/
theorem pause_transparency (C : Collaborators) (O : Options) (B : List FetchResult)
    (w : State) (K : Nat) (cyc cyc1 : Nat → Nat) :
    ((run (pausingFirst C w.numRun K cyc) O (some B) w).2
        = (run (neverPausing C cyc1) O (some B) w).2 ∧
      fetchReturns (run (pausingFirst C w.numRun K cyc) O (some B) w).1.events
        = fetchReturns (run (neverPausing C cyc1) O (some B) w).1.events ∧
      submitted (run (pausingFirst C w.numRun K cyc) O (some B) w).1.events
        = submitted (run (neverPausing C cyc1) O (some B) w).1.events ∧
      (run (pausingFirst C w.numRun K cyc) O (some B) w).1.TraceMIs
        = (run (neverPausing C cyc1) O (some B) w).1.TraceMIs ∧
      (run (pausingFirst C w.numRun K cyc) O (some B) w).1.traceOut
        = (run (neverPausing C cyc1) O (some B) w).1.traceOut ∧
      (run (pausingFirst C w.numRun K cyc) O (some B) w).1.events.map Event.blank
        = (run (neverPausing C cyc1) O (some B) w).1.events.map Event.blank) ∧
    ∀ s : State, (runPipeline C s).2 =
      match C.pipelineRun s.numRun with
      | PipelineResult.cycles _ => none
      | PipelineResult.pause => none
      | PipelineResult.fatal e => some e := by
  refine ⟨?_, fun s => runPipeline_snd C s⟩
  have hF1 : ∀ n e, (pausingFirst C w.numRun K cyc).pipelineRun n ≠ PipelineResult.fatal e := by
    intro n e
    simp only [pausingFirst]
    split_ifs <;> simp
  have hF2 : ∀ n e, (neverPausing C cyc1).pipelineRun n ≠ PipelineResult.fatal e := by
    intro n e
    simp [neverPausing]
  obtain ⟨⟨_, g2, g3, g4, _, _⟩, hr⟩ := run_rel (pausingFirst C w.numRun K cyc)
    (neverPausing C cyc1) O rfl rfl rfl rfl hF1 hF2 B w
  refine ⟨hr, ?_, ?_, g2, g4, g3⟩
  · rw [← fetchReturns_blank, g3, fetchReturns_blank]
  · rw [← submitted_blank, g3, submitted_blank]

end mcad
